import Mathlib

/-!
# Verification of the negative-news screening pipeline

Shallow embedding of the core of the `flipzen` negative-news agent
(`src/agent/nodes/analysis.py`, `content_processing.py`, `search.py`,
`utils.py`, `graph.py`) and proofs about it.

Python strings are modelled as `List Char`; Python numbers appearing in
risk arithmetic are modelled as exact rationals (`ℚ`); Python dicts with
fixed key sets are modelled as structures; functions that may raise are
modelled as `Option`-valued functions, and external collaborators
(the completion service, the search provider, the fetcher) are modelled
as oracle parameters.
-/

namespace NewsVerifier

/-- Python `str` is modelled as a list of characters. -/
abbrev Str := List Char

/-- The whitespace class used by Python `str.strip()` and by the `\s`
regex class: space, tab, newline, carriage return, vertical tab, form feed. -/
def pyIsSpace (c : Char) : Bool :=
  c = ' ' || c = '\t' || c = '\n' || c = '\r' || c = Char.ofNat 11 || c = Char.ofNat 12

/-- Python `str.strip()`: drop leading and trailing whitespace. -/
def pyStrip (s : Str) : Str :=
  ((s.dropWhile pyIsSpace).reverse.dropWhile pyIsSpace).reverse

/-- Python `content.split("\n")` (note: `"".split("\n") == [""]`). -/
def splitOnNl : Str → List Str
  | [] => [[]]
  | c :: cs =>
    match splitOnNl cs with
    | [] => if c = '\n' then [[], []] else [[c]]
    | h :: t => if c = '\n' then [] :: h :: t else (c :: h) :: t

/-- Python `"\n".join(l)`. -/
def joinNl : List Str → Str
  | [] => []
  | [p] => p
  | p :: q :: ps => p ++ '\n' :: joinNl (q :: ps)

/-- Total character count of a list of paragraphs. -/
def sumLen (l : List Str) : ℕ := (l.map List.length).sum

/-! ## Content chunker (`content_processing.py`, `chunk_content`) -/

/-- A scraped document as produced by `scrape_content`: the dict keys
`url`, `title`, `source`, `published_date` and `content` (the code also
accepts a legacy `"text"` key holding the same payload). -/
structure Doc where
  url : Str
  title : Str
  source : Str
  published_date : Str
  content : Str
deriving DecidableEq, Repr

/-- A content chunk; the code stores the same text under both the
`"content"` and `"text"` keys, modelled as the single field `text`. -/
structure Chunk where
  url : Str
  title : Str
  source : Str
  published_date : Str
  text : Str
deriving DecidableEq, Repr

/-- `metadata_header = f"SOURCE: {source}\nTITLE: {title}\nURL: {url}\nDATE: {published_date}\n\n"`. -/
def mkHeader (doc : Doc) : Str :=
  "SOURCE: ".data ++ doc.source ++ "\nTITLE: ".data ++ doc.title ++
    "\nURL: ".data ++ doc.url ++ "\nDATE: ".data ++ doc.published_date ++ "\n\n".data

/-- Wrap chunk text with the document's metadata fields. -/
def mkChunk (doc : Doc) (text : Str) : Chunk :=
  { url := doc.url, title := doc.title, source := doc.source
    published_date := doc.published_date, text := text }

/-- `paragraphs = [p for p in content.split("\n") if p.strip()]`. -/
def paragraphs (content : Str) : List Str :=
  (splitOnNl content).filter (fun p => pyStrip p ≠ [])

/-- The overlap-collection loop: iterate the closed chunk's paragraphs in
reverse, prepending each to the overlap buffer, and stop as soon as the
buffer holds at least 200 characters (`overlap`). The first argument is
the reversed paragraph list of the closed chunk. -/
def overlapLoop : List Str → List Str → ℕ → List Str × ℕ
  | [], acc, len => (acc, len)
  | p :: rest, acc, len =>
    let acc1 := p :: acc
    let len1 := len + p.length
    if 200 ≤ len1 then (acc1, len1) else overlapLoop rest acc1 len1

/-- Paragraphs seeded into the next buffer after a chunk is closed. -/
def overlapSeed (cur : List Str) : List Str × ℕ :=
  overlapLoop cur.reverse [] 0

/-- The paragraph-accumulation loop of `chunk_content` for long documents:
append each paragraph to the running buffer; once the buffer's character
count reaches 2000 (`chunk_size`), emit a chunk (header plus the joined
buffer), and seed the next buffer with the overlap paragraphs.  At the
end, flush a final chunk if the buffer is non-empty. -/
def chunkLoop (doc : Doc) : List Str → List Str → ℕ → List Chunk
  | [], cur, len =>
    if cur ≠ [] ∧ 0 < len then [mkChunk doc (mkHeader doc ++ joinNl cur)] else []
  | p :: ps, cur, len =>
    let cur1 := cur ++ [p]
    let len1 := len + p.length
    if 2000 ≤ len1 then
      mkChunk doc (mkHeader doc ++ joinNl cur1) ::
        chunkLoop doc ps (overlapSeed cur1).1 (overlapSeed cur1).2
    else
      chunkLoop doc ps cur1 len1

/-- Chunks produced for one document: empty content is skipped; content
shorter than 2000 characters becomes a single chunk `header + content`;
longer content goes through the overlapping-chunk loop. -/
def docChunks (doc : Doc) : List Chunk :=
  if doc.content = [] then []
  else if doc.content.length < 2000 then [mkChunk doc (mkHeader doc ++ doc.content)]
  else chunkLoop doc (paragraphs doc.content) [] 0

/-- `chunk_content`: chunk every scraped document, concatenating the
per-document chunk lists in order. -/
def chunk_content (docs : List Doc) : List Chunk :=
  docs.flatMap docChunks

/-- Two adjacent chunks of one document share an overlap: a string `s` of
at least 200 characters that is a suffix of the first chunk's text and
follows the metadata header at the start of the second chunk's text. -/
def chunkLink (doc : Doc) (c d : Chunk) : Prop :=
  ∃ s : Str, 200 ≤ s.length ∧ (∃ a, c.text = a ++ s) ∧ ∃ b, d.text = mkHeader doc ++ (s ++ b)

/-- Document used to refute the 2000-character upper bound on chunk
length: a single 3999-character paragraph. -/
def oversizeDoc : Doc :=
  { url := "u".data, title := "t".data, source := "s".data, published_date := "d".data
    content := List.replicate 3999 'a' }

/-- Document with an empty body. -/
def emptyBodyDoc : Doc :=
  { url := "u".data, title := "t".data, source := "s".data, published_date := "d".data
    content := [] }

/-- Small document with a short non-empty body. -/
def shortDoc : Doc :=
  { url := "u".data, title := "t".data, source := "s".data, published_date := "d".data
    content := "abc".data }

/-! ## Number rendering (used by the analyzer summary and the JSON model) -/

/-- The character for a decimal digit. -/
def digitChar (d : ℕ) : Char := Char.ofNat (48 + d)

/-- Digit-emission loop (fuel-based so that it evaluates inside the
kernel), accumulating digits from least to most significant. -/
def natToCharsGo : ℕ → ℕ → Str → Str
  | 0, _, acc => acc
  | fuel + 1, n, acc =>
    if n = 0 then acc else natToCharsGo fuel (n / 10) (digitChar (n % 10) :: acc)

/-- Decimal rendering of a natural number, most significant digit first. -/
def natToChars (n : ℕ) : Str :=
  if n = 0 then [digitChar 0] else natToCharsGo (n + 1) n []

/-- Decimal rendering of an integer. -/
def intToChars (n : ℤ) : Str :=
  if n < 0 then '-' :: natToChars n.natAbs else natToChars n.natAbs

/-! ## Analyzer (`analysis.py`, `analyze_content`)

The per-chunk completion call — together with its JSON-recovery and
keyword fallbacks — is abstracted as a `classify` oracle returning the
parsed findings of one chunk.  The mock-client branch and the name-keyed
override branch (which §9 of the spec identifies as test-fixture
contamination) are outside this model; the model follows the general path
of `analyze_content`.  Severity and confidence are JSON numbers, modelled
as exact rationals. -/

/-- One entry of the `findings` array parsed from a completion response. -/
structure RawFinding where
  ftype : Str
  description : Str
  severity : ℚ
  confidence : ℚ
deriving DecidableEq, Repr

/-- A finding after `analyze_content` attaches the chunk's source metadata. -/
structure Finding where
  ftype : Str
  description : Str
  severity : ℚ
  confidence : ℚ
  source : Str
  url : Str
  published_at : Str
deriving DecidableEq, Repr

/-- One deduplicated source entry of the final analysis. -/
structure SourceEntry where
  url : Str
  title : Str
  publication : Str
  date : Str
deriving DecidableEq, Repr

/-- The analysis record returned by `analyze_content`. -/
structure Analysis where
  has_negative_news : Bool
  risk_score : ℚ
  summary : Str
  findings : List Finding
  key_concerns : List Str
  sources : List SourceEntry
deriving DecidableEq, Repr

/-- `finding["source"] = source; finding["url"] = url; finding["published_at"] = published_at`. -/
def attachMeta (c : Chunk) (rf : RawFinding) : Finding :=
  { ftype := rf.ftype, description := rf.description, severity := rf.severity
    confidence := rf.confidence, source := c.source, url := c.url
    published_at := c.published_date }

/-- The chunk loop of `analyze_content`: chunks with empty text are
skipped (`if not text: continue`); each finding of a chunk is tagged with
that chunk's source, URL and published date and appended to `all_findings`. -/
def collectFindings (classify : Chunk → List RawFinding) (chunks : List Chunk) : List Finding :=
  chunks.flatMap (fun c => if c.text = [] then [] else (classify c).map (attachMeta c))

/-- Python `round` on rationals: round half to even. -/
def roundHalfEven (x : ℚ) : ℤ :=
  if x - ⌊x⌋ < 1/2 then ⌊x⌋
  else if 1/2 < x - ⌊x⌋ then ⌊x⌋ + 1
  else if ⌊x⌋ % 2 = 0 then ⌊x⌋ else ⌊x⌋ + 1

/-- Python `round(x, 1)`. -/
def pyRound1 (x : ℚ) : ℚ := (roundHalfEven (10 * x) : ℚ) / 10

/-- `total_risk += (severity * confidence) / 10` over all findings. -/
def totalRisk (findings : List Finding) : ℚ :=
  (findings.map (fun f => f.severity * f.confidence / 10)).sum

/-- `risk_score = round(min(total_risk, 10), 1)`. -/
def riskScore (findings : List Finding) : ℚ :=
  pyRound1 (min (totalRisk findings) 10)

/-- The risk-score formula exactly as the spec words it:
`round(min(10, Σ (severity_i × confidence_i) / 10), 1)`. -/
def specRiskFormula (findings : List Finding) : ℚ :=
  pyRound1 (min 10 ((findings.map (fun f => f.severity * f.confidence)).sum / 10))

/-- Per-type accumulator of the key-concern grouping
(`finding_types[finding_type]`). -/
structure GroupData where
  count : ℕ
  severity : ℚ
  confidence : ℚ
  description : Str
deriving DecidableEq, Repr

/-- One iteration of the grouping loop: bump count and the severity and
confidence sums, then set the description if empty, else replace it when
the finding's `severity*confidence` exceeds the group's summed
`severity*confidence` (the comparison the code actually performs). -/
def updateGroup (f : Finding) (g : GroupData) : GroupData :=
  let g1 : GroupData :=
    { g with
      count := g.count + 1
      severity := g.severity + f.severity
      confidence := g.confidence + f.confidence }
  if g1.description = [] then { g1 with description := f.description }
  else if g1.severity * g1.confidence < f.severity * f.confidence then
    { g1 with description := f.description }
  else g1

/-- Insert a finding into the insertion-ordered association list of
groups (a Python dict keyed by finding type). -/
def insertFinding (groups : List (Str × GroupData)) (f : Finding) : List (Str × GroupData) :=
  match groups with
  | [] => [(f.ftype, updateGroup f { count := 0, severity := 0, confidence := 0, description := [] })]
  | (t, g) :: rest =>
    if t = f.ftype then (t, updateGroup f g) :: rest
    else (t, g) :: insertFinding rest f

/-- `finding_types` after the grouping loop. -/
def findingGroups (findings : List Finding) : List (Str × GroupData) :=
  findings.foldl insertFinding []

/-- The sort key `(count, severity * confidence)`. -/
def groupKey (g : GroupData) : ℕ × ℚ := (g.count, g.severity * g.confidence)

/-- Descending comparison of sort keys (`reverse=True`), lexicographic. -/
def keyGE (a b : ℕ × ℚ) : Bool :=
  if b.1 < a.1 then true
  else if a.1 = b.1 then decide (b.2 ≤ a.2)
  else false

/-- Stable insertion of a group into a descending-sorted list: an element
goes before the first strictly-smaller-keyed element and after elements
with equal keys, exactly the stability Python's `sorted` guarantees. -/
def insertSorted (x : Str × GroupData) : List (Str × GroupData) → List (Str × GroupData)
  | [] => [x]
  | y :: ys => if keyGE (groupKey x.2) (groupKey y.2) then x :: y :: ys else y :: insertSorted x ys

/-- `sorted(finding_types.items(), key=..., reverse=True)` as a stable sort. -/
def sortGroups : List (Str × GroupData) → List (Str × GroupData)
  | [] => []
  | x :: xs => insertSorted x (sortGroups xs)

/-- `key_concerns`: sort the groups, keep the top 5, format as
`f"{type_name}: {description}"`. -/
def keyConcerns (findings : List Finding) : List Str :=
  ((sortGroups (findingGroups findings)).take 5).map
    (fun tg => tg.1 ++ ": ".data ++ tg.2.description)

/-- The source-deduplication loop: one entry per non-empty URL, first
occurrence wins (`if url and url not in source_urls`). -/
def sourcesLoop : List Finding → List Str → List SourceEntry
  | [], _ => []
  | f :: fs, seen =>
    if f.url = [] ∨ f.url ∈ seen then sourcesLoop fs seen
    else { url := f.url, title := [], publication := f.source, date := f.published_at } ::
      sourcesLoop fs (f.url :: seen)

/-- `sources` of the final analysis. -/
def collectSources (findings : List Finding) : List SourceEntry :=
  sourcesLoop findings []

/-- The enumerated `f"{i+1}) {type}: {description}; "` pieces of the summary. -/
def summaryItems : List Finding → ℕ → Str
  | [], _ => []
  | f :: fs, i =>
    natToChars (i + 1) ++ ") ".data ++ f.ftype ++ ": ".data ++ f.description ++ "; ".data ++
      summaryItems fs (i + 1)

/-- `findings_summary`, listing the first three findings. -/
def findingsSummary (findings : List Finding) : Str :=
  "Negative news detected with the following concerns: ".data ++
    summaryItems (findings.take 3) 0

/-- The clean result returned when no content chunks are available. -/
def cleanAnalysisNoContent : Analysis :=
  { has_negative_news := false, risk_score := 0
    summary := "No content available for analysis".data
    findings := [], key_concerns := [], sources := [] }

/-- The clean result returned when no findings were produced. -/
def cleanAnalysisNoFindings : Analysis :=
  { has_negative_news := false, risk_score := 0
    summary := "No negative news detected based on the analyzed content.".data
    findings := [], key_concerns := [], sources := [] }

/-- `analyze_content` (general path): empty chunk list → clean no-content
result; otherwise collect the findings of every chunk; no findings →
clean negative result; otherwise aggregate risk score, summary, key
concerns and sources. -/
def analyze_content (classify : Chunk → List RawFinding) (chunks : List Chunk) : Analysis :=
  if chunks = [] then cleanAnalysisNoContent
  else
    let all_findings := collectFindings classify chunks
    if all_findings = [] then cleanAnalysisNoFindings
    else
      { has_negative_news := true
        risk_score := riskScore all_findings
        summary := findingsSummary all_findings
        findings := all_findings
        key_concerns := keyConcerns all_findings
        sources := collectSources all_findings }

/-- Concrete finding with severity 7, confidence 6. -/
def finding76 : Finding :=
  { ftype := "A".data, description := "a".data, severity := 7, confidence := 6
    source := "s".data, url := "u1".data, published_at := "d".data }

/-- Concrete finding with severity 8, confidence 7. -/
def finding87 : Finding :=
  { ftype := "B".data, description := "b".data, severity := 8, confidence := 7
    source := "s".data, url := "u2".data, published_at := "d".data }

/-- Concrete low-scoring finding of type `T` (severity 1, confidence 1). -/
def lowFindingT : Finding :=
  { ftype := "T".data, description := "a".data, severity := 1, confidence := 1
    source := "s".data, url := "u1".data, published_at := "d".data }

/-- Concrete high-scoring finding of type `T` (severity 10, confidence 10). -/
def highFindingT : Finding :=
  { ftype := "T".data, description := "b".data, severity := 10, confidence := 10
    source := "s".data, url := "u2".data, published_at := "d".data }

/-! ## Search adapter (`search.py`, `call_web_search`)

The per-query provider request (`perform_bing_search` inside its
`try`/`except`) is abstracted as an oracle `performSearch`; `none` models
a query whose request raised and was skipped. -/

/-- One search result. -/
structure SearchResult where
  url : Str
  title : Str
  description : Str
  source : Str
  published_at : Str
deriving DecidableEq, Repr

/-- The fields of the state dict that `search_node` passes to
`call_web_search`: the two query lists and the entity's full name. -/
structure SearchInput where
  web_queries : List Str
  news_queries : List Str
  entity_name : Str
deriving DecidableEq, Repr

/-- The entity-name default queries built when no queries are present. -/
def fallbackSearchQueries (name : Str) : List Str :=
  [name ++ " controversy".data, name ++ " negative news".data, name ++ " scandal".data]

/-- The query-selection chain at the top of `call_web_search`
(the legacy `state["queries"][...]` lookups always miss on the input
built by `search_node`, which carries only `web_queries`, `news_queries`
and `entity`). -/
def selectQueries (input : SearchInput) : List Str :=
  if input.web_queries ≠ [] then input.web_queries
  else if input.news_queries ≠ [] then input.news_queries
  else fallbackSearchQueries input.entity_name

/-- The URL-deduplication loop (`unique_results` dict): keep a result only
if its URL was not seen before; insertion order is preserved. -/
def dedupLoop : List SearchResult → List Str → List SearchResult
  | [], _ => []
  | r :: rs, seen =>
    if r.url ∈ seen then dedupLoop rs seen else r :: dedupLoop rs (r.url :: seen)

/-- Deduplicate results by URL, first occurrence wins. -/
def dedupByUrl (rs : List SearchResult) : List SearchResult := dedupLoop rs []

/-- `call_web_search` (real-search path): select queries, collect
per-query results (a failed query contributes nothing), deduplicate by
URL and truncate to `top_k`. -/
def call_web_search (performSearch : Str → Option (List SearchResult))
    (input : SearchInput) (top_k : ℕ) : List SearchResult :=
  let queries := selectQueries input
  let collected := queries.flatMap (fun q => (performSearch q).getD [])
  (dedupByUrl collected).take top_k

/-! ## Structured-data recovery (`utils.py`, `safe_extract_json`)

`json.loads` / `json.dumps` are modelled by an executable parser and
serializer over a JSON value type.  Model restrictions (documented, not
exercised by any claim): numerals are integers (no floats or exponents),
string escapes cover the named JSON escapes but not `\uXXXX`, and object
member lists are kept as-is (a duplicate key would be kept twice here
where Python's dict keeps the last).  The serializer uses Python's
default separators `", "` and `": "`. -/

/-- `"` (kept out of character-literal syntax on purpose). -/
def quoteChar : Char := Char.ofNat 34

/-- `\`. -/
def backslashChar : Char := Char.ofNat 92

/-- Opening curly brace. -/
def lbrace : Char := Char.ofNat 123

/-- Closing curly brace. -/
def rbrace : Char := Char.ofNat 125

/-- Backtick. -/
def backtickChar : Char := Char.ofNat 96

/-- ASCII decimal digit test. -/
def isDigitChar (c : Char) : Bool := 48 ≤ c.toNat && c.toNat ≤ 57

/-- Numeric value of a digit character. -/
def digitVal (c : Char) : ℕ := c.toNat - 48

mutual
/-- A JSON value. -/
inductive Json where
  | null : Json
  | bool (b : Bool) : Json
  | num (n : ℤ) : Json
  | str (s : Str) : Json
  | arr (elems : JsonList) : Json
  | obj (members : JsonMembers) : Json
deriving DecidableEq, Repr
/-- A list of JSON values. -/
inductive JsonList where
  | nil : JsonList
  | cons (hd : Json) (tl : JsonList) : JsonList
deriving DecidableEq, Repr
/-- An insertion-ordered list of JSON object members. -/
inductive JsonMembers where
  | nil : JsonMembers
  | cons (key : Str) (val : Json) (tl : JsonMembers) : JsonMembers
deriving DecidableEq, Repr
end

/-- Whether a JSON value is a record (a dict in Python terms). -/
def Json.isRecord : Json → Bool
  | .obj _ => true
  | _ => false

/-- Concatenation of JSON value lists. -/
def appendL : JsonList → JsonList → JsonList
  | .nil, l => l
  | .cons a t, l => .cons a (appendL t l)

/-- Concatenation of member lists. -/
def appendM : JsonMembers → JsonMembers → JsonMembers
  | .nil, m => m
  | .cons k v t, m => .cons k v (appendM t m)

/-- The escaping Python `json.dumps` applies to one character (named
escapes; other control characters, which the well-formedness predicate
excludes, are not modelled). -/
def escapeChar (c : Char) : Str :=
  if c = quoteChar then [backslashChar, quoteChar]
  else if c = backslashChar then [backslashChar, backslashChar]
  else if c = '\n' then [backslashChar, 'n']
  else if c = '\t' then [backslashChar, 't']
  else if c = '\r' then [backslashChar, 'r']
  else if c = Char.ofNat 8 then [backslashChar, 'b']
  else if c = Char.ofNat 12 then [backslashChar, 'f']
  else [c]

/-- String-body escaping of `json.dumps`. -/
def escapeStr (s : Str) : Str := s.flatMap escapeChar

mutual
/-- `json.dumps` with the default separators `", "` and `": "`. -/
def dumpsJ : Json → Str
  | .null => "null".data
  | .bool true => "true".data
  | .bool false => "false".data
  | .num n => intToChars n
  | .str s => quoteChar :: (escapeStr s ++ [quoteChar])
  | .arr .nil => "[]".data
  | .arr (.cons a t) => '[' :: (dumpsJ a ++ dumpsArrTail t ++ [']'])
  | .obj .nil => [lbrace, rbrace]
  | .obj (.cons k v t) =>
    lbrace :: ((quoteChar :: (escapeStr k ++ [quoteChar, ':', ' '] ++ dumpsJ v)) ++
      dumpsObjTail t ++ [rbrace])
/-- The `", element"` continuation of a serialized array. -/
def dumpsArrTail : JsonList → Str
  | .nil => []
  | .cons a t => ',' :: ' ' :: (dumpsJ a ++ dumpsArrTail t)
/-- The `", member"` continuation of a serialized object. -/
def dumpsObjTail : JsonMembers → Str
  | .nil => []
  | .cons k v t =>
    ',' :: ' ' :: ((quoteChar :: (escapeStr k ++ [quoteChar, ':', ' '] ++ dumpsJ v)) ++
      dumpsObjTail t)
end

/-- One serialized object member, `"key": value`. -/
def dumpsMember (k : Str) (v : Json) : Str :=
  quoteChar :: (escapeStr k ++ [quoteChar, ':', ' '] ++ dumpsJ v)

/-- Characters needing no escaping: printable, not a quote, not a
backslash.  Values built from such strings serialize to text the parser
reads back verbatim. -/
def wfChar (c : Char) : Bool := 32 ≤ c.toNat && !(c = quoteChar) && !(c = backslashChar)

/-- Escape-free string. -/
def wfStr (s : Str) : Bool := s.all wfChar

mutual
/-- Values whose strings are escape-free (the region where the modelled
serializer agrees with Python's byte for byte). -/
def wfJson : Json → Bool
  | .null => true
  | .bool _ => true
  | .num _ => true
  | .str s => wfStr s
  | .arr l => wfList l
  | .obj m => wfMembers m
/-- `wfJson` over a value list. -/
def wfList : JsonList → Bool
  | .nil => true
  | .cons a t => wfJson a && wfList t
/-- `wfJson` over members. -/
def wfMembers : JsonMembers → Bool
  | .nil => true
  | .cons k v t => wfStr k && wfJson v && wfMembers t
end

mutual
/-- Structural size of a value, used as parser fuel accounting. -/
def sizeJ : Json → ℕ
  | .null => 1
  | .bool _ => 1
  | .num _ => 1
  | .str _ => 1
  | .arr l => 1 + sizeL l
  | .obj m => 1 + sizeM m
/-- Size of a value list. -/
def sizeL : JsonList → ℕ
  | .nil => 1
  | .cons a t => 1 + sizeJ a + sizeL t
/-- Size of a member list. -/
def sizeM : JsonMembers → ℕ
  | .nil => 1
  | .cons _ v t => 1 + sizeJ v + sizeM t
end

/-- The whitespace JSON allows between tokens. -/
def jsonWsChar (c : Char) : Bool := c = ' ' || c = '\t' || c = '\n' || c = '\r'

/-- Skip JSON whitespace. -/
def skipWs (cs : Str) : Str := cs.dropWhile jsonWsChar

/-- Decoding of one escape character after a backslash. -/
def unescapeChar (c : Char) : Option Char :=
  if c = quoteChar then some quoteChar
  else if c = backslashChar then some backslashChar
  else if c = '/' then some '/'
  else if c = 'n' then some '\n'
  else if c = 't' then some '\t'
  else if c = 'r' then some '\r'
  else if c = 'b' then some (Char.ofNat 8)
  else if c = 'f' then some (Char.ofNat 12)
  else none

/-- Parse a string body up to and including the closing quote. -/
def parseStringBody : Str → Option (Str × Str)
  | [] => none
  | c :: cs =>
    if c = quoteChar then some ([], cs)
    else if c = backslashChar then
      match cs with
      | [] => none
      | e :: cs2 =>
        match unescapeChar e with
        | some u => (parseStringBody cs2).map (fun r => (u :: r.1, r.2))
        | none => none
    else (parseStringBody cs).map (fun r => (c :: r.1, r.2))

/-- Greedy digit accumulation. -/
def parseDigitsAux : Str → ℕ → ℕ × Str
  | [], acc => (acc, [])
  | c :: cs, acc =>
    if isDigitChar c then parseDigitsAux cs (10 * acc + digitVal c) else (acc, c :: cs)

/-- Parse a JSON natural numeral (no redundant leading zero). -/
def parseNat : Str → Option (ℕ × Str)
  | [] => none
  | c :: cs =>
    if c = '0' then
      match cs with
      | d :: _ => if isDigitChar d then none else some (0, cs)
      | [] => some (0, [])
    else if isDigitChar c then some (parseDigitsAux cs (digitVal c))
    else none

/-- Parse an optionally-signed integer numeral. -/
def parseIntTok : Str → Option (ℤ × Str)
  | [] => none
  | c :: cs =>
    if c = '-' then (parseNat cs).map (fun r => (-(r.1 : ℤ), r.2))
    else (parseNat (c :: cs)).map (fun r => ((r.1 : ℤ), r.2))

mutual
/-- Recursive-descent JSON value parser; the fuel argument strictly
decreases on every nested call and is sized generously by `json_loads`. -/
def parseVal : ℕ → Str → Option (Json × Str)
  | 0, _ => none
  | fuel + 1, cs =>
    match skipWs cs with
    | [] => none
    | c :: rest =>
      if c = quoteChar then (parseStringBody rest).map (fun r => (Json.str r.1, r.2))
      else if c = lbrace then
        match skipWs rest with
        | [] => none
        | d :: rest2 =>
          if d = rbrace then some (Json.obj .nil, rest2)
          else
            match parseMember fuel (d :: rest2) with
            | some (k, v, cs3) => parseObjRest fuel (JsonMembers.cons k v .nil) cs3
            | none => none
      else if c = '[' then
        match skipWs rest with
        | [] => none
        | d :: rest2 =>
          if d = ']' then some (Json.arr .nil, rest2)
          else
            match parseVal fuel (d :: rest2) with
            | some (j, cs3) => parseArrRest fuel (JsonList.cons j .nil) cs3
            | none => none
      else if "null".data.isPrefixOf (c :: rest) then some (Json.null, rest.drop 3)
      else if "true".data.isPrefixOf (c :: rest) then some (Json.bool true, rest.drop 3)
      else if "false".data.isPrefixOf (c :: rest) then some (Json.bool false, rest.drop 4)
      else if c = '-' || isDigitChar c then
        (parseIntTok (c :: rest)).map (fun r => (Json.num r.1, r.2))
      else none
/-- Parse `, value ... ]` continuations of an array. -/
def parseArrRest : ℕ → JsonList → Str → Option (Json × Str)
  | 0, _, _ => none
  | fuel + 1, acc, cs =>
    match skipWs cs with
    | [] => none
    | c :: rest =>
      if c = ',' then
        match parseVal fuel rest with
        | some (j, cs2) => parseArrRest fuel (appendL acc (JsonList.cons j .nil)) cs2
        | none => none
      else if c = ']' then some (Json.arr acc, rest)
      else none
/-- Parse one `"key": value` member. -/
def parseMember : ℕ → Str → Option (Str × Json × Str)
  | 0, _ => none
  | fuel + 1, cs =>
    match skipWs cs with
    | [] => none
    | c :: rest =>
      if c = quoteChar then
        match parseStringBody rest with
        | some (k, cs2) =>
          match skipWs cs2 with
          | [] => none
          | d :: rest2 =>
            if d = ':' then
              match parseVal fuel rest2 with
              | some (v, cs3) => some (k, v, cs3)
              | none => none
            else none
        | none => none
      else none
/-- Parse `, member ... }` continuations of an object. -/
def parseObjRest : ℕ → JsonMembers → Str → Option (Json × Str)
  | 0, _, _ => none
  | fuel + 1, acc, cs =>
    match skipWs cs with
    | [] => none
    | c :: rest =>
      if c = ',' then
        match parseMember fuel rest with
        | some (k, v, cs2) => parseObjRest fuel (appendM acc (JsonMembers.cons k v .nil)) cs2
        | none => none
      else if c = rbrace then some (Json.obj acc, rest)
      else none
end

/-- `json.loads`: parse one value and require that only whitespace
follows (otherwise Python raises "Extra data"). -/
def json_loads (text : Str) : Option Json :=
  match parseVal (2 * text.length + 2) text with
  | some (j, rest) => if skipWs rest = [] then some j else none
  | none => none

/-- Three backticks, the fence delimiter of the regex
`` r'```(?:json)?\s*([\s\S]*?)```' ``. -/
def tripleBacktick : Str := [backtickChar, backtickChar, backtickChar]

/-- Take the segment before the earliest triple-backtick occurrence
(the lazy group of the fenced-block regex); `none` when there is no
closing fence. -/
def splitAtFence : Str → Option Str
  | [] => none
  | c :: cs =>
    if tripleBacktick.isPrefixOf (c :: cs) then some []
    else (splitAtFence cs).map (fun t => c :: t)

/-- `re.search` of the fenced-block pattern: at the first opening
triple backtick, optionally consume `json`, skip whitespace greedily and
take the lazy group up to the earliest closing fence; if no closing fence
follows this opening, try later opening positions. -/
def findFence : Str → Option Str
  | [] => none
  | c :: cs =>
    if tripleBacktick.isPrefixOf (c :: cs) then
      let after := cs.drop 2
      let after2 := if "json".data.isPrefixOf after then after.drop 4 else after
      let body := after2.dropWhile pyIsSpace
      match splitAtFence body with
      | some inner => some inner
      | none => findFence cs
    else findFence cs

/-- Take characters up to and including the first closing brace
(the lazy part of `r'({[\s\S]*?})'` after the opening brace). -/
def takeToRbrace : Str → Option Str
  | [] => none
  | c :: cs =>
    if c = rbrace then some [rbrace] else (takeToRbrace cs).map (fun t => c :: t)

/-- `re.search(r'({[\s\S]*?})', text)`: the substring from the first
opening brace through the first closing brace after it. -/
def braceMatch : Str → Option Str
  | [] => none
  | c :: cs =>
    if c = lbrace then (takeToRbrace cs).map (fun t => lbrace :: t)
    else braceMatch cs

/-- `safe_extract_json`: try the whole text as JSON, then the inner text
of a fenced code block (stripped), then the first-brace-to-first-brace
substring; return the empty record if everything fails.  Total by
construction — the Python version catches every `JSONDecodeError`. -/
def safe_extract_json (text : Str) : Json :=
  match json_loads text with
  | some j => j
  | none =>
    let braceStep : Json :=
      match braceMatch text with
      | some s => (json_loads s).getD (Json.obj .nil)
      | none => Json.obj .nil
    match findFence text with
    | some inner =>
      match json_loads (pyStrip inner) with
      | some j => j
      | none => braceStep
    | none => braceStep

/-- Characters that are neither braces nor backticks; garbage made of
them cannot trigger the fenced-block or brace patterns. -/
def plainChar (c : Char) : Bool :=
  !(c = lbrace) && !(c = rbrace) && !(c = backtickChar)

mutual
/-- Values whose serialization contains no brace and no backtick
characters (in particular, no nested objects). -/
def flatVal : Json → Bool
  | .null => true
  | .bool _ => true
  | .num _ => true
  | .str s => s.all plainChar
  | .arr l => flatValL l
  | .obj _ => false
/-- `flatVal` over a value list. -/
def flatValL : JsonList → Bool
  | .nil => true
  | .cons a t => flatVal a && flatValL t
end

/-- `flatVal` over members, with brace-and-backtick-free keys. -/
def flatMembers : JsonMembers → Bool
  | .nil => true
  | .cons k v t => k.all plainChar && flatVal v && flatMembers t

/-- A record with no nested braces in its serialization. -/
def flatRecord : Json → Bool
  | .obj m => flatMembers m
  | _ => false

/-- The record `{"a": {"b": 1}}` whose serialization nests braces. -/
def nestedRecord : Json :=
  .obj (.cons "a".data (.obj (.cons "b".data (.num 1) .nil)) .nil)

/-- Garbage followed by the nested record: the first balanced
brace-delimited substring is the whole serialized record. -/
def nestedGarbageText : Str := "x ".data ++ dumpsJ nestedRecord

/-- The flat record `{"a": 1}`. -/
def flatRecordExample : Json := .obj (.cons "a".data (.num 1) .nil)

/-- Non-JSON garbage with no brace and no backtick. -/
def garbageText : Str := "no json here".data

/-- Text not beginning with a digit (a numeral before it parses greedily
and stops exactly at its end). -/
def noLeadDigit : Str → Bool
  | [] => true
  | c :: _ => !(isDigitChar c)

/-! ## Pipeline (`graph.py`)

The LangGraph workflow is a straight-line composition of node functions
over the `NegativeNewsState` dict.  The external collaborators (entity
resolver, query generator, per-query search request, scraper, per-chunk
LLM classifier, report formatter) are oracle parameters; an oracle
returning `none` models the corresponding Python call raising an
exception, which the node's `except` branch catches. -/

/-- Outcome tag recorded in the `debug` dict. -/
inductive Tag where
  | success
  | failed
deriving DecidableEq, Repr

/-- The `debug` dict: one optional outcome tag per stage (`none` models
the key being absent). -/
structure Debug where
  initialization : Option Tag
  entity_resolution : Option Tag
  query_generation : Option Tag
  search : Option Tag
  scraping : Option Tag
  chunking : Option Tag
  analysis : Option Tag
  formatting : Option Tag
deriving DecidableEq, Repr

/-- Entity record produced by the resolver, modelled by the one field the
graph nodes read (`full_name`). -/
structure Entity where
  full_name : Str
deriving DecidableEq, Repr

/-- The `queries` field of the state. -/
structure Queries where
  news_queries : List Str
  web_queries : List Str
deriving DecidableEq, Repr

/-- The formatted report, modelled by the fields the formatting node and
the invoke wrapper read. -/
structure Report where
  has_negative_news : Bool
  risk_score : ℚ
  summary : Str
deriving DecidableEq, Repr

/-- The cumulative `output` dict (`none` models an absent key). -/
structure Output where
  entity : Option Entity
  queries : Option Queries
  search_results : Option (List SearchResult)
  scraped_content : Option (List Doc)
  content_chunks : Option (List Chunk)
  analysis : Option Analysis
  has_negative_news : Option Bool
  risk_score : Option ℚ
  summary : Option Str
  report : Option Report
deriving DecidableEq, Repr

/-- The empty `output` dict the initializer creates. -/
def emptyOutput : Output :=
  { entity := none, queries := none, search_results := none, scraped_content := none
    content_chunks := none, analysis := none, has_negative_news := none
    risk_score := none, summary := none, report := none }

/-- The `input` dict the initializer extracts, modelled by its name field. -/
structure InputData where
  name : Str
deriving DecidableEq, Repr

/-- A user request (`UserInput` of `state.py`), modelled by the entity
name it carries. -/
structure UserInput where
  name : Str
deriving DecidableEq, Repr

/-- `NegativeNewsState`. -/
structure NNState where
  input : InputData
  entity : Option Entity
  debug : Debug
  output : Output
  error : Option Str
  queries : Option Queries
  search_results : Option (List SearchResult)
  scraped_content : Option (List Doc)
  content_chunks : Option (List Chunk)
  analysis : Option Analysis
  report : Option Report
deriving DecidableEq, Repr

/-- `initialize_state`, with the module-global `_last_input_data` made an
explicit argument (`invoke_negative_news_check` assigns it the raw input
of the most recent invocation before running the graph; `none` models the
global still holding `None`).  A `none` user input models an empty or
falsy invocation payload, which the workaround replaces with the cached
last input when one exists; an absent name maps to `"Unknown"`. -/
def initialize_state (lastInput : Option UserInput) (user_input : Option UserInput) : NNState :=
  { input :=
      match user_input with
      | some u => { name := u.name }
      | none =>
        match lastInput with
        | some u => { name := u.name }
        | none => { name := "Unknown".data }
    entity := none
    debug := { initialization := some .success, entity_resolution := none
               query_generation := none, search := none, scraping := none
               chunking := none, analysis := none, formatting := none }
    output := emptyOutput
    error := none
    queries := none
    search_results := none
    scraped_content := none
    content_chunks := none
    analysis := none
    report := none }

/-- `entity_resolution_node`: skip on a previous error; on resolver
success record the entity, else fall back to an entity built from the
input name and mark the stage failed. -/
def entity_resolution_node (resolveEntity : InputData → Option Entity) (s : NNState) :
    NNState :=
  if s.error.isSome then s
  else
    match resolveEntity s.input with
    | some e =>
      { s with entity := some e
               debug := { s.debug with entity_resolution := some .success }
               output := { s.output with entity := some e } }
    | none =>
      { s with entity := some { full_name := s.input.name }
               debug := { s.debug with entity_resolution := some .failed }
               output := { s.output with entity := some { full_name := s.input.name } } }

/-- The entity info `query_generation_node` passes on: the state's entity,
else one built from the input name. -/
def qgEntityInfo (s : NNState) : Entity :=
  match s.entity with
  | some e => e
  | none => { full_name := s.input.name }

/-- The fallback queries of `query_generation_node`'s `except` branch. -/
def qgFallback (name : Str) : List Str :=
  [name ++ " scandal".data, name ++ " controversy".data, name ++ " negative news".data]

/-- The fallback query dict (the same three queries for both lists). -/
def qgFallbackQueries (name : Str) : Queries :=
  { news_queries := qgFallback name, web_queries := qgFallback name }

/-- `query_generation_node`: skip on a previous error; on generator
success store its query lists, else store the three fallback queries (for
both lists) and mark the stage failed. -/
def query_generation_node (generateQueries : Entity → Option Queries) (s : NNState) :
    NNState :=
  if s.error.isSome then s
  else
    match generateQueries (qgEntityInfo s) with
    | some qs =>
      { s with queries := some qs
               debug := { s.debug with query_generation := some .success }
               output := { s.output with queries := some qs } }
    | none =>
      { s with queries := some (qgFallbackQueries (qgEntityInfo s).full_name)
               debug := { s.debug with query_generation := some .failed }
               output := { s.output with
                 queries := some (qgFallbackQueries (qgEntityInfo s).full_name) } }

/-- The entity name a node's state-dict lookup supplies, with the
input-name fallback. -/
def stateEntityName (s : NNState) : Str :=
  match s.entity with
  | some e => e.full_name
  | none => s.input.name

/-- The `search_input` dict `search_node` builds. -/
def searchInputOf (qs : Queries) (s : NNState) : SearchInput :=
  { web_queries := qs.web_queries, news_queries := qs.news_queries
    entity_name := stateEntityName s }

/-- `search_node`: skip on a previous error; with no queries the raised
`ValueError` lands in the `except` branch, which records empty results,
marks the stage failed and sets the error field; otherwise
`call_web_search` (which never raises) runs and the stage is marked a
success. -/
def search_node (performSearch : Str → Option (List SearchResult)) (top_k : ℕ)
    (s : NNState) : NNState :=
  if s.error.isSome then s
  else
    match s.queries with
    | none =>
      { s with search_results := some []
               debug := { s.debug with search := some .failed }
               error := some "Search failed: No queries available for search".data }
    | some qs =>
      { s with search_results := some (call_web_search performSearch (searchInputOf qs s) top_k)
               debug := { s.debug with search := some .success }
               output := { s.output with
                 search_results := some (call_web_search performSearch (searchInputOf qs s) top_k) } }

/-- `scraping_node`: skip on a previous error; with no (or empty) search
results the raised `ValueError` lands in the `except` branch (empty
scraped content, stage failed, error left unset); a scraper failure takes
the same branch; otherwise record the scraped documents. -/
def scraping_node (scrapeContent : List SearchResult → Option (List Doc)) (s : NNState) :
    NNState :=
  if s.error.isSome then s
  else
    match s.search_results with
    | none =>
      { s with scraped_content := some []
               debug := { s.debug with scraping := some .failed } }
    | some [] =>
      { s with scraped_content := some []
               debug := { s.debug with scraping := some .failed } }
    | some (r :: rs) =>
      match scrapeContent (r :: rs) with
      | some docs =>
        { s with scraped_content := some docs
                 debug := { s.debug with scraping := some .success }
                 output := { s.output with scraped_content := some docs } }
      | none =>
        { s with scraped_content := some []
                 debug := { s.debug with scraping := some .failed } }

/-- `chunking_node`: skip on a previous error; with no (or empty) scraped
content the raised `ValueError` lands in the `except` branch; otherwise
run the chunker. -/
def chunking_node (s : NNState) : NNState :=
  if s.error.isSome then s
  else
    match s.scraped_content with
    | none =>
      { s with content_chunks := some []
               debug := { s.debug with chunking := some .failed } }
    | some [] =>
      { s with content_chunks := some []
               debug := { s.debug with chunking := some .failed } }
    | some (d :: ds) =>
      { s with content_chunks := some (chunk_content (d :: ds))
               debug := { s.debug with chunking := some .success }
               output := { s.output with content_chunks := some (chunk_content (d :: ds)) } }

/-- The empty analysis dict `analysis_node` itself builds when no chunks
are available (its summary text differs from the analyzer's own
no-content summary). -/
def emptyAnalysisNode : Analysis :=
  { has_negative_news := false, risk_score := 0
    summary := "No content was available for analysis".data
    findings := [], key_concerns := [], sources := [] }

/-- The analysis headline fields copied into the output dict. -/
def analysisOutputs (o : Output) (a : Analysis) : Output :=
  { o with analysis := some a, has_negative_news := some a.has_negative_news
           risk_score := some a.risk_score, summary := some a.summary }

/-- `analysis_node`: skipped only when an error is recorded AND the
stored chunk list is the empty list (the Python guard compares
`state.get("content_chunks", [])` — the stored value, `None` included —
against `[]`, and `None == []` is false); a missing or empty chunk list
yields the node's empty analysis; otherwise `analyze_content` runs.
Either way the stage is marked a success and the headline fields are
copied into the output dict. -/
def analysis_node (classify : Chunk → List RawFinding) (s : NNState) : NNState :=
  if s.error.isSome ∧ s.content_chunks = some [] then s
  else
    match s.content_chunks with
    | none =>
      { s with analysis := some emptyAnalysisNode
               debug := { s.debug with analysis := some .success }
               output := analysisOutputs s.output emptyAnalysisNode }
    | some [] =>
      { s with analysis := some emptyAnalysisNode
               debug := { s.debug with analysis := some .success }
               output := analysisOutputs s.output emptyAnalysisNode }
    | some (c :: cs) =>
      { s with analysis := some (analyze_content classify (c :: cs))
               debug := { s.debug with analysis := some .success }
               output := analysisOutputs s.output (analyze_content classify (c :: cs)) }

/-- Backfill of `output["has_negative_news"]` when absent. -/
def backfillHNN (o : Output) (r : Report) : Output :=
  if o.has_negative_news = none then { o with has_negative_news := some r.has_negative_news }
  else o

/-- Backfill of `output["risk_score"]` when absent. -/
def backfillRisk (o : Output) (r : Report) : Output :=
  if o.risk_score = none then { o with risk_score := some r.risk_score } else o

/-- Backfill of `output["summary"]` when absent. -/
def backfillSummary (o : Output) (r : Report) : Output :=
  if o.summary = none then { o with summary := some r.summary } else o

/-- The formatting node's trailing block: store the report in the output
dict and backfill the three headline fields only where absent. -/
def backfill (o : Output) (r : Report) : Output :=
  backfillSummary (backfillRisk (backfillHNN { o with report := some r } r) r) r

/-- The default report of the formatting node's no-analysis branch. -/
def defaultReportNoAnalysis : Report :=
  { has_negative_news := false, risk_score := 0
    summary := "No analysis was available to format".data }

/-- The default report of the formatting node's `except` branch (its
Python summary also carries the exception text). -/
def defaultReportFailed : Report :=
  { has_negative_news := false, risk_score := 0
    summary := "Formatting failed".data }

/-- `formatting_node`: runs unconditionally (no error guard).  With no
analysis a default report is built; otherwise `format_results` runs, its
failure landing in the `except` branch with a default report and a failed
stage tag.  The report always lands in the state and the output dict. -/
def formatting_node (formatResults : Analysis → Entity → Option Report) (s : NNState) :
    NNState :=
  match s.analysis with
  | none =>
    { s with report := some defaultReportNoAnalysis
             debug := { s.debug with formatting := some .success }
             output := backfill s.output defaultReportNoAnalysis }
  | some a =>
    match formatResults a { full_name := stateEntityName s } with
    | some r =>
      { s with report := some r
               debug := { s.debug with formatting := some .success }
               output := backfill s.output r }
    | none =>
      { s with report := some defaultReportFailed
               debug := { s.debug with formatting := some .failed }
               output := backfill s.output defaultReportFailed }

/-- The collaborator oracles of one pipeline run. -/
structure Collaborators where
  resolveEntity : InputData → Option Entity
  generateQueries : Entity → Option Queries
  performSearch : Str → Option (List SearchResult)
  scrapeContent : List SearchResult → Option (List Doc)
  classify : Chunk → List RawFinding
  formatResults : Analysis → Entity → Option Report

/-- The compiled workflow: the straight-line edge chain of
`build_negative_news_graph`. -/
def run_pipeline (co : Collaborators) (top_k : ℕ) (lastInput : Option UserInput)
    (user_input : Option UserInput) : NNState :=
  formatting_node co.formatResults
    (analysis_node co.classify
      (chunking_node
        (scraping_node co.scrapeContent
          (search_node co.performSearch top_k
            (query_generation_node co.generateQueries
              (entity_resolution_node co.resolveEntity
                (initialize_state lastInput user_input)))))))

/-- Collaborators whose external calls all fail (every provider request
raises) and whose classifier finds nothing. -/
def noProviderCollaborators : Collaborators :=
  { resolveEntity := fun _ => none
    generateQueries := fun _ => none
    performSearch := fun _ => none
    scrapeContent := fun _ => none
    classify := fun _ => []
    formatResults := fun _ _ => none }

end NewsVerifier

namespace NewsVerifier

/-! ## Lemmas about the chunker -/

theorem sumLen_append (a b : List Str) : sumLen (a ++ b) = sumLen a + sumLen b := by
  simp [sumLen]

theorem sumLen_reverse (a : List Str) : sumLen a.reverse = sumLen a := by
  simp [sumLen, List.map_reverse, List.sum_reverse]

theorem joinNl_append (a b : List Str) (ha : a ≠ []) (hb : b ≠ []) :
    joinNl (a ++ b) = joinNl a ++ '\n' :: joinNl b := by
  induction a with
  | nil => exact absurd rfl ha
  | cons p a ih =>
    cases a with
    | nil =>
      cases b with
      | nil => exact absurd rfl hb
      | cons q bs => simp [joinNl]
    | cons q as =>
      simp only [List.cons_append, joinNl, List.append_eq]
      rw [← List.cons_append q as b, ih (by simp)]
      simp [List.append_assoc]

theorem joinNl_length (l : List Str) (h : l ≠ []) :
    (joinNl l).length + 1 = sumLen l + l.length := by
  induction l with
  | nil => exact absurd rfl h
  | cons p t ih =>
    cases t with
    | nil => simp [joinNl, sumLen]
    | cons q ts =>
      have := ih (by simp)
      simp only [joinNl, List.length_append, List.length_cons, sumLen, List.map_cons,
        List.sum_cons] at this ⊢
      omega

theorem pyStrip_nil : pyStrip [] = [] := rfl

theorem length_pos_of_pyStrip_ne_nil {p : Str} (h : pyStrip p ≠ []) : 1 ≤ p.length := by
  rcases p with _ | ⟨c, t⟩
  · exact absurd pyStrip_nil h
  · simp

theorem paragraphs_mem_ne_nil {content : Str} {p : Str} (h : p ∈ paragraphs content) :
    1 ≤ p.length := by
  have h2 := (List.mem_filter.mp h).2
  exact length_pos_of_pyStrip_ne_nil (by simpa using h2)

theorem overlapLoop_spec : ∀ (rin acc : List Str) (len : ℕ), ∃ pre,
    pre <+: rin ∧ (rin ≠ [] → pre ≠ []) ∧
    overlapLoop rin acc len = (pre.reverse ++ acc, len + sumLen pre) ∧
    (200 ≤ len + sumLen rin → 200 ≤ len + sumLen pre) := by
  intro rin
  induction rin with
  | nil =>
    intro acc len
    exact ⟨[], List.prefix_refl _, fun h => absurd rfl h, by simp [overlapLoop, sumLen], by
      simp [sumLen]⟩
  | cons p rest ih =>
    intro acc len
    by_cases hb : 200 ≤ len + p.length
    · refine ⟨[p], ⟨rest, rfl⟩, fun _ => by simp, ?_, ?_⟩
      · simp [overlapLoop, hb, sumLen]
      · intro _; simpa [sumLen] using hb
    · obtain ⟨pre, hpre, hne, heq, hbound⟩ := ih (p :: acc) (len + p.length)
      refine ⟨p :: pre, ?_, fun _ => by simp, ?_, ?_⟩
      · obtain ⟨t, ht⟩ := hpre
        exact ⟨t, by simp [ht]⟩
      · simp only [overlapLoop, if_neg hb, heq, List.reverse_cons, List.append_assoc,
          List.singleton_append, sumLen, List.map_cons, List.sum_cons, Prod.mk.injEq]
        exact ⟨trivial, by omega⟩
      · intro h
        have h2 : 200 ≤ len + p.length + sumLen rest := by
          simp only [sumLen, List.map_cons, List.sum_cons] at h ⊢; omega
        have h3 := hbound h2
        simp only [sumLen, List.map_cons, List.sum_cons] at h3 ⊢
        omega

theorem overlapSeed_spec (cur : List Str) (hc : cur ≠ []) :
    ∃ a seed : List Str, cur = a ++ seed ∧ seed ≠ [] ∧
      overlapSeed cur = (seed, sumLen seed) ∧
      (200 ≤ sumLen cur → 200 ≤ sumLen seed) := by
  obtain ⟨pre, hpre, hne, heq, hbound⟩ := overlapLoop_spec cur.reverse [] 0
  obtain ⟨t, ht⟩ := hpre
  have hcur : cur = t.reverse ++ pre.reverse := by
    have : cur.reverse.reverse = (pre ++ t).reverse := by rw [ht]
    simpa [List.reverse_append] using this
  refine ⟨t.reverse, pre.reverse, hcur, ?_, ?_, ?_⟩
  · have : pre ≠ [] := hne (by simpa using hc)
    simpa using this
  · simpa [overlapSeed, sumLen_reverse] using heq
  · intro h
    have := hbound (by simpa [sumLen_reverse] using h)
    simpa [sumLen_reverse] using this

theorem overlapLoop_upper (P : ℕ) : ∀ (rin acc : List Str) (len : ℕ),
    (∀ p ∈ rin, p.length ≤ P) → len ≤ 199 → (overlapLoop rin acc len).2 ≤ 199 + P := by
  intro rin
  induction rin with
  | nil => intro acc len _ h; simpa [overlapLoop] using Nat.le_trans h (by omega)
  | cons p rest ih =>
    intro acc len hP hlen
    have hp : p.length ≤ P := hP p (by simp)
    by_cases hb : 200 ≤ len + p.length
    · simp only [overlapLoop, if_pos hb]
      omega
    · simp only [overlapLoop, if_neg hb]
      exact ih _ _ (fun q hq => hP q (by simp [hq])) (by omega)

theorem chunkLoop_header (doc : Doc) : ∀ (ps cur : List Str) (len : ℕ) (c : Chunk),
    c ∈ chunkLoop doc ps cur len → ∃ rest, c.text = mkHeader doc ++ rest := by
  intro ps
  induction ps with
  | nil =>
    intro cur len c hc
    by_cases h : cur ≠ [] ∧ 0 < len
    · simp only [chunkLoop, if_pos h, List.mem_singleton] at hc
      exact ⟨joinNl cur, by simp [hc, mkChunk]⟩
    · simp [chunkLoop, if_neg h] at hc
  | cons p ps ih =>
    intro cur len c hc
    by_cases hb : 2000 ≤ len + p.length
    · simp only [chunkLoop, if_pos hb, List.mem_cons] at hc
      rcases hc with hc | hc
      · exact ⟨joinNl (cur ++ [p]), by simp [hc, mkChunk]⟩
      · exact ih _ _ _ hc
    · simp only [chunkLoop, if_neg hb] at hc
      exact ih _ _ _ hc

theorem chunkLoop_adjacent (doc : Doc) : ∀ (ps cur : List Str) (len : ℕ),
    len = sumLen cur →
    (∀ c, (chunkLoop doc ps cur len).head? = some c → cur ≠ [] →
        ∃ b, c.text = mkHeader doc ++ (joinNl cur ++ b)) ∧
    (∀ i c d, (chunkLoop doc ps cur len)[i]? = some c →
        (chunkLoop doc ps cur len)[i+1]? = some d → chunkLink doc c d) := by
  intro ps
  induction ps with
  | nil =>
    intro cur len hlen
    constructor
    · intro c hc _
      by_cases h : cur ≠ [] ∧ 0 < len
      · simp only [chunkLoop, if_pos h, List.head?_cons, Option.some.injEq] at hc
        exact ⟨[], by simp [← hc, mkChunk]⟩
      · simp [chunkLoop, if_neg h] at hc
    · intro i c d hc hd
      by_cases h : cur ≠ [] ∧ 0 < len
      · simp only [chunkLoop, if_pos h] at hd
        rcases i with _ | i <;> simp at hd
      · simp [chunkLoop, if_neg h] at hc
  | cons p ps ih =>
    intro cur len hlen
    by_cases hb : 2000 ≤ len + p.length
    · -- a chunk is emitted, then the loop continues from the overlap seed
      have hcur1 : (cur ++ [p] : List Str) ≠ [] := by simp
      obtain ⟨a, seed, hsplit, hseedne, hseedeq, hseedbound⟩ := overlapSeed_spec (cur ++ [p]) hcur1
      have hsum1 : sumLen (cur ++ [p]) = len + p.length := by
        simp [sumLen_append, hlen, sumLen]
      have hseedsum : 200 ≤ sumLen seed := hseedbound (by omega)
      obtain ⟨ihhead, ihadj⟩ := ih seed (overlapSeed (cur ++ [p])).2 (by rw [hseedeq])
      have hrest : chunkLoop doc ps (overlapSeed (cur ++ [p])).1 (overlapSeed (cur ++ [p])).2 =
          chunkLoop doc ps seed (overlapSeed (cur ++ [p])).2 := by rw [hseedeq]
      constructor
      · -- head of the output is the emitted chunk, which extends the buffer
        intro c hc hcur
        simp only [chunkLoop, if_pos hb, List.head?_cons, Option.some.injEq] at hc
        subst hc
        refine ⟨'\n' :: p, ?_⟩
        simp only [mkChunk]
        rw [joinNl_append cur [p] hcur (by simp)]
        simp [joinNl]
      · intro i c d hc hd
        simp only [chunkLoop, if_pos hb] at hc hd
        rcases i with _ | i
        · -- link between the emitted chunk and the head of the rest
          simp only [List.getElem?_cons_zero, Option.some.injEq] at hc
          simp only [List.getElem?_cons_succ] at hd
          have hd' : (chunkLoop doc ps seed (overlapSeed (cur ++ [p])).2).head? = some d := by
            rw [← hrest]
            rcases hh : chunkLoop doc ps (overlapSeed (cur ++ [p])).1
                (overlapSeed (cur ++ [p])).2 with _ | ⟨x, xs⟩
            · rw [hh] at hd; simp at hd
            · rw [hh] at hd; simp at hd; simp [hd]
          obtain ⟨b, hbtext⟩ := ihhead d hd' hseedne
          refine ⟨joinNl seed, ?_, ?_, ⟨b, hbtext⟩⟩
          · have := joinNl_length seed hseedne
            have : 1 ≤ seed.length := by
              rcases seed with _ | _
              · exact absurd rfl hseedne
              · simp
            have hjl := joinNl_length seed hseedne
            omega
          · subst hc
            simp only [mkChunk]
            rcases a with _ | ⟨a0, as⟩
            · simp only [List.nil_append] at hsplit
              exact ⟨mkHeader doc, by rw [hsplit]⟩
            · refine ⟨mkHeader doc ++ joinNl (a0 :: as) ++ ['\n'], ?_⟩
              rw [hsplit, joinNl_append (a0 :: as) seed (by simp) hseedne]
              simp [List.append_assoc]
        · simp only [List.getElem?_cons_succ] at hc hd
          exact ihadj i c d (by rw [← hrest]; exact hc) (by rw [← hrest]; exact hd)
    · -- accumulate the paragraph and continue
      obtain ⟨ihhead, ihadj⟩ := ih (cur ++ [p]) (len + p.length)
        (by simp [sumLen_append, hlen, sumLen])
      constructor
      · intro c hc hcur
        simp only [chunkLoop, if_neg hb] at hc
        obtain ⟨b, hbtext⟩ := ihhead c hc (by simp)
        refine ⟨'\n' :: p ++ b, ?_⟩
        rw [hbtext, joinNl_append cur [p] hcur (by simp)]
        simp [joinNl]
      · intro i c d hc hd
        simp only [chunkLoop, if_neg hb] at hc hd
        exact ihadj i c d hc hd

theorem length_le_sumLen (l : List Str) (h : ∀ p ∈ l, 1 ≤ p.length) :
    l.length ≤ sumLen l := by
  induction l with
  | nil => simp [sumLen]
  | cons p t ih =>
    have := h p (by simp)
    have := ih (fun q hq => h q (by simp [hq]))
    simp only [List.length_cons, sumLen, List.map_cons, List.sum_cons] at *
    omega

theorem chunkLoop_lower (doc : Doc) : ∀ (ps cur : List Str) (len : ℕ),
    len = sumLen cur →
    ∀ i c, (chunkLoop doc ps cur len)[i]? = some c →
      i + 1 < (chunkLoop doc ps cur len).length →
      (mkHeader doc).length + 2000 ≤ c.text.length := by
  intro ps
  induction ps with
  | nil =>
    intro cur len _ i c _ hlt
    exfalso
    by_cases h : cur ≠ [] ∧ 0 < len
    · simp only [chunkLoop, if_pos h, List.length_singleton] at hlt; omega
    · simp only [chunkLoop, if_neg h, List.length_nil] at hlt; omega
  | cons p ps ih =>
    intro cur len hlen i c hc hlt
    by_cases hb : 2000 ≤ len + p.length
    · have hcur1 : (cur ++ [p] : List Str) ≠ [] := by simp
      obtain ⟨a, seed, hsplit, hseedne, hseedeq, _⟩ := overlapSeed_spec (cur ++ [p]) hcur1
      simp only [chunkLoop, if_pos hb] at hc hlt
      rcases i with _ | i
      · simp only [List.getElem?_cons_zero, Option.some.injEq] at hc
        subst hc
        have hsum1 : sumLen (cur ++ [p]) = len + p.length := by
          simp [sumLen_append, hlen, sumLen]
        have hjl := joinNl_length (cur ++ [p]) hcur1
        have hlen1 : 1 ≤ (cur ++ [p] : List Str).length := by simp
        simp only [mkChunk, List.length_append]
        omega
      · simp only [List.getElem?_cons_succ] at hc
        simp only [List.length_cons] at hlt
        exact ih _ _ (by rw [hseedeq]) i c hc (by omega)
    · simp only [chunkLoop, if_neg hb] at hc hlt
      exact ih _ _ (by simp [sumLen_append, hlen, sumLen]) i c hc hlt

theorem chunkLoop_upper (doc : Doc) (P : ℕ) : ∀ (ps cur : List Str) (len : ℕ),
    len = sumLen cur →
    (∀ p ∈ ps, 1 ≤ p.length ∧ p.length ≤ P) →
    (∀ p ∈ cur, 1 ≤ p.length ∧ p.length ≤ P) →
    (len ≤ 1999 ∨ len ≤ 199 + P) →
    ∀ c ∈ chunkLoop doc ps cur len, c.text.length ≤ (mkHeader doc).length + 2 * (1999 + 2 * P) := by
  intro ps
  induction ps with
  | nil =>
    intro cur len hlen _ hcur hinv c hc
    by_cases h : cur ≠ [] ∧ 0 < len
    · simp only [chunkLoop, if_pos h, List.mem_singleton] at hc
      subst hc
      have hjl := joinNl_length cur h.1
      have hk := length_le_sumLen cur (fun p hp => (hcur p hp).1)
      simp only [mkChunk, List.length_append]
      omega
    · simp [chunkLoop, if_neg h] at hc
  | cons p ps ih =>
    intro cur len hlen hps hcur hinv c hc
    have hp := hps p (by simp)
    have hcur1 : ∀ q ∈ cur ++ [p], 1 ≤ q.length ∧ q.length ≤ P := by
      intro q hq
      rcases List.mem_append.mp hq with hq | hq
      · exact hcur q hq
      · simp only [List.mem_singleton] at hq; subst hq; exact hp
    have hsum1 : sumLen (cur ++ [p]) = len + p.length := by
      simp [sumLen_append, hlen, sumLen]
    by_cases hb : 2000 ≤ len + p.length
    · have hcur1ne : (cur ++ [p] : List Str) ≠ [] := by simp
      obtain ⟨a, seed, hsplit, hseedne, hseedeq, _⟩ := overlapSeed_spec (cur ++ [p]) hcur1ne
      simp only [chunkLoop, if_pos hb, List.mem_cons] at hc
      rcases hc with hc | hc
      · subst hc
        have hjl := joinNl_length (cur ++ [p]) hcur1ne
        have hk := length_le_sumLen (cur ++ [p]) (fun q hq => (hcur1 q hq).1)
        simp only [mkChunk, List.length_append]
        omega
      · have hseedlen : (overlapSeed (cur ++ [p])).2 ≤ 199 + P := by
          apply overlapLoop_upper
          · intro q hq
            rw [List.mem_reverse] at hq
            exact (hcur1 q hq).2
          · omega
        refine ih seed (overlapSeed (cur ++ [p])).2 (by rw [hseedeq])
          (fun q hq => hps q (by simp [hq])) ?_ ?_ c ?_
        · intro q hq
          exact hcur1 q (by rw [hsplit]; exact List.mem_append_right a hq)
        · right; exact hseedlen
        · rw [hseedeq] at hc ⊢
          exact hc
    · simp only [chunkLoop, if_neg hb] at hc
      exact ih (cur ++ [p]) (len + p.length) (Eq.symm hsum1)
        (fun q hq => hps q (by simp [hq])) hcur1 (by left; omega) c hc

theorem dropWhile_no_space (s : Str) (h : ∀ c ∈ s, pyIsSpace c = false) :
    s.dropWhile pyIsSpace = s := by
  cases s with
  | nil => rfl
  | cons c t => simp [List.dropWhile_cons, h c (by simp)]

theorem pyStrip_of_no_space (s : Str) (h : ∀ c ∈ s, pyIsSpace c = false) :
    pyStrip s = s := by
  unfold pyStrip
  rw [dropWhile_no_space s h, dropWhile_no_space s.reverse
    (fun c hc => h c (List.mem_reverse.mp hc)), List.reverse_reverse]

theorem splitOnNl_no_newline (s : Str) (h : ∀ c ∈ s, c ≠ '\n') : splitOnNl s = [s] := by
  induction s with
  | nil => rfl
  | cons c cs ih =>
    have hcs : splitOnNl cs = [cs] := ih (fun d hd => h d (by simp [hd]))
    simp [splitOnNl, hcs, h c (by simp)]

theorem paragraphs_single (s : Str) (hne : s ≠ []) (hnl : ∀ c ∈ s, c ≠ '\n')
    (hsp : ∀ c ∈ s, pyIsSpace c = false) : paragraphs s = [s] := by
  unfold paragraphs
  rw [splitOnNl_no_newline s hnl]
  simp [pyStrip_of_no_space s hsp, hne]

theorem chunkLoop_single_big (doc : Doc) (p : Str) (hp : 2000 ≤ p.length) :
    chunkLoop doc [p] [] 0 =
      [mkChunk doc (mkHeader doc ++ p), mkChunk doc (mkHeader doc ++ p)] := by
  have h1 : (2000:ℕ) ≤ 0 + p.length := by omega
  have h2 : (200:ℕ) ≤ 0 + p.length := by omega
  simp only [chunkLoop, overlapSeed, List.nil_append, List.reverse_cons, List.reverse_nil,
    overlapLoop, if_pos h1, if_pos h2, joinNl]
  rw [if_pos]
  constructor <;> simp
  omega

theorem oversize_content_len : oversizeDoc.content.length = 3999 := by
  rw [show oversizeDoc.content = List.replicate 3999 'a' from rfl, List.length_replicate]

theorem oversize_content_ne_nil : oversizeDoc.content ≠ [] := by
  apply List.ne_nil_of_length_pos
  rw [oversize_content_len]
  omega

/-! ## Claim theorems for the chunker (C3, C4) -/

/-- C3, as stated, is false: a document whose body is empty has body
length `0 < 2000` yet the chunker produces no chunk at all, instead of
exactly one chunk equal to `header + body`. -/
theorem claim_C3_counterexample :
    emptyBodyDoc.content.length < 2000 ∧ docChunks emptyBodyDoc = [] := by
  constructor
  · decide
  · rfl

/-- C3 (amended: the single-chunk guarantee holds for *non-empty* bodies
shorter than 2000 characters; an empty body yields zero chunks): for every
document with a non-empty body shorter than 2000 characters, the chunker
produces exactly one chunk equal to the metadata header concatenated with
the whole body; for every document with body length ≥ 2000, every chunk is
prefixed with the exact metadata header of its document, and each pair of
consecutive chunks shares an overlap of at least 200 characters (a string
that ends the earlier chunk and follows the header in the later one). -/
theorem claim_C3 (doc : Doc) :
    (doc.content ≠ [] → doc.content.length < 2000 →
      docChunks doc = [mkChunk doc (mkHeader doc ++ doc.content)])
    ∧ (2000 ≤ doc.content.length →
        (∀ c ∈ docChunks doc, ∃ rest, c.text = mkHeader doc ++ rest)
        ∧ ∀ i c d, (docChunks doc)[i]? = some c → (docChunks doc)[i+1]? = some d →
            chunkLink doc c d) := by
  constructor
  · intro hne hlt
    unfold docChunks
    rw [if_neg hne, if_pos hlt]
  · intro hge
    have hne : doc.content ≠ [] := by
      intro h
      rw [h] at hge
      simp at hge
    have hnlt : ¬ doc.content.length < 2000 := by omega
    have hd : docChunks doc = chunkLoop doc (paragraphs doc.content) [] 0 := by
      unfold docChunks
      rw [if_neg hne, if_neg hnlt]
    constructor
    · intro c hc
      rw [hd] at hc
      exact chunkLoop_header doc _ _ _ c hc
    · intro i c d hc hd2
      rw [hd] at hc hd2
      exact (chunkLoop_adjacent doc (paragraphs doc.content) [] 0 (by simp [sumLen])).2
        i c d hc hd2

/-- Witness for C3: the short branch applied to a concrete 3-character
document, and the header-prefix part of the long branch applied to a
concrete 3999-character document. -/
theorem claim_C3_witness :
    docChunks shortDoc = [mkChunk shortDoc (mkHeader shortDoc ++ shortDoc.content)]
    ∧ ∀ c ∈ docChunks oversizeDoc, ∃ rest, c.text = mkHeader oversizeDoc ++ rest := by
  constructor
  · exact (claim_C3 shortDoc).1 (by decide) (by decide)
  · intro c hc
    exact ((claim_C3 oversizeDoc).2 (by rw [oversize_content_len]; omega)).1 c hc

/-- C4, as stated, is false: for the 3999-character single-paragraph
document, the chunker emits two chunks of 4034 characters each; the first
chunk is not the document's last chunk yet its length exceeds the
configured maximum of 2000 characters (a chunk is closed only *after* the
accumulated paragraphs reach 2000 characters, and the metadata header is
prepended on top). -/
theorem claim_C4_counterexample :
    (docChunks oversizeDoc).map (fun c => c.text.length) = [4034, 4034] := by
  have hsp : ∀ c ∈ oversizeDoc.content, pyIsSpace c = false := by
    intro c hc
    have : c = 'a' := List.eq_of_mem_replicate hc
    subst this
    decide
  have hnl : ∀ c ∈ oversizeDoc.content, c ≠ '\n' := by
    intro c hc
    have : c = 'a' := List.eq_of_mem_replicate hc
    subst this
    decide
  have hne : oversizeDoc.content ≠ [] := oversize_content_ne_nil
  have hclen : oversizeDoc.content.length = 3999 := oversize_content_len
  have hpar : paragraphs oversizeDoc.content = [oversizeDoc.content] :=
    paragraphs_single _ hne hnl hsp
  have hh : (mkHeader oversizeDoc).length = 35 := by decide
  unfold docChunks
  rw [if_neg hne, if_neg (by omega), hpar, chunkLoop_single_big oversizeDoc _ (by omega)]
  simp [mkChunk, List.length_append, hh, hclen]

/-- C4 (amended: 2000 is a closing threshold, not an upper bound): in
every document, each chunk other than the document's last has text length
at least `header + 2000` (the buffer is closed only once its paragraphs
total at least 2000 characters); and if every paragraph of the document is
at most `P` characters long, each chunk's text length is at most
`header + 2·(1999 + 2·P)`. -/
theorem claim_C4 (doc : Doc) (P : ℕ)
    (hP : ∀ p ∈ paragraphs doc.content, p.length ≤ P) :
    (∀ i c, (docChunks doc)[i]? = some c → i + 1 < (docChunks doc).length →
        (mkHeader doc).length + 2000 ≤ c.text.length)
    ∧ ∀ c ∈ docChunks doc, c.text.length ≤ (mkHeader doc).length + 2 * (1999 + 2 * P) := by
  by_cases hempty : doc.content = []
  · unfold docChunks
    rw [if_pos hempty]
    refine ⟨fun i c hc _ => by simp at hc, fun c hc => by simp at hc⟩
  · by_cases hshort : doc.content.length < 2000
    · unfold docChunks
      rw [if_neg hempty, if_pos hshort]
      constructor
      · intro i c _ hlt
        simp only [List.length_singleton] at hlt
        omega
      · intro c hc
        simp only [List.mem_singleton] at hc
        subst hc
        simp only [mkChunk, List.length_append]
        omega
    · have hd : docChunks doc = chunkLoop doc (paragraphs doc.content) [] 0 := by
        unfold docChunks
        rw [if_neg hempty, if_neg hshort]
      rw [hd]
      constructor
      · exact chunkLoop_lower doc _ _ _ (by simp [sumLen])
      · exact chunkLoop_upper doc P _ _ _ (by simp [sumLen])
          (fun p hp => ⟨paragraphs_mem_ne_nil hp, hP p hp⟩)
          (fun p hp => by simp at hp) (by left; omega)

/-! ## Lemmas about the analyzer -/

theorem roundHalfEven_nonneg (x : ℚ) (h : 0 ≤ x) : 0 ≤ roundHalfEven x := by
  unfold roundHalfEven
  have h0 : (0:ℤ) ≤ ⌊x⌋ := Int.floor_nonneg.mpr h
  split_ifs <;> omega

theorem roundHalfEven_le (x : ℚ) (h : x ≤ 100) : roundHalfEven x ≤ 100 := by
  have h1 : ⌊x⌋ ≤ 100 := by
    calc ⌊x⌋ ≤ ⌊(100:ℚ)⌋ := Int.floor_le_floor h
    _ = 100 := by norm_num
  have hfl : (⌊x⌋ : ℚ) ≤ x := Int.floor_le x
  unfold roundHalfEven
  split_ifs with hr1 hr2 hpar
  · omega
  · by_contra h2
    have hn : ⌊x⌋ = 100 := by omega
    rw [hn] at hfl
    have hx : x = 100 := le_antisymm h (by exact_mod_cast hfl)
    rw [hn, hx] at hr2
    norm_num at hr2
  · omega
  · by_contra h2
    have hn : ⌊x⌋ = 100 := by omega
    rw [hn] at hfl
    have hx : x = 100 := le_antisymm h (by exact_mod_cast hfl)
    rw [hn, hx] at hr1
    norm_num at hr1

theorem pyRound1_bounds (x : ℚ) (h0 : 0 ≤ x) (h10 : x ≤ 10) :
    0 ≤ pyRound1 x ∧ pyRound1 x ≤ 10 := by
  unfold pyRound1
  have a := roundHalfEven_nonneg (10 * x) (by positivity)
  have b := roundHalfEven_le (10 * x) (by linarith)
  constructor
  · have : (0:ℚ) ≤ (roundHalfEven (10 * x) : ℚ) := by exact_mod_cast a
    positivity
  · rw [div_le_iff₀ (by norm_num)]
    have : (roundHalfEven (10 * x) : ℚ) ≤ 100 := by exact_mod_cast b
    linarith

theorem pyRound1_eq_of_mul_eq_int (x : ℚ) (n : ℤ) (h : 10 * x = (n : ℚ)) :
    pyRound1 x = (n : ℚ) / 10 := by
  unfold pyRound1 roundHalfEven
  rw [h, Int.floor_intCast, if_pos (by norm_num : (n:ℚ) - (n:ℤ) < 1/2)]

theorem totalRisk_eq (findings : List Finding) :
    totalRisk findings = (findings.map (fun f => f.severity * f.confidence)).sum / 10 := by
  induction findings with
  | nil => simp [totalRisk]
  | cons f fs ih =>
    simp only [totalRisk, List.map_cons, List.sum_cons] at ih ⊢
    rw [ih, add_div]

theorem totalRisk_nonneg (findings : List Finding)
    (h : ∀ f ∈ findings, 0 ≤ f.severity ∧ 0 ≤ f.confidence) : 0 ≤ totalRisk findings := by
  apply List.sum_nonneg
  intro x hx
  obtain ⟨f, hf, rfl⟩ := List.mem_map.mp hx
  obtain ⟨h1, h2⟩ := h f hf
  exact div_nonneg (mul_nonneg h1 h2) (by norm_num)

/-! ## Claim theorems for the analyzer (C1, C2, C5) -/

/-- C1: the aggregate risk score equals
`round(min(10, Σ severity_i × confidence_i / 10), 1)`; under the data
model's 1–10 ranges it lies in `[0, 10]` and is an exact multiple of one
tenth; it is `0` whenever no findings were collected; and the two findings
(7,6) and (8,7) yield exactly 9.8. -/
theorem claim_C1 (findings : List Finding)
    (hrange : ∀ f ∈ findings, 1 ≤ f.severity ∧ f.severity ≤ 10 ∧
      1 ≤ f.confidence ∧ f.confidence ≤ 10) :
    riskScore findings = specRiskFormula findings
    ∧ 0 ≤ riskScore findings ∧ riskScore findings ≤ 10
    ∧ (∃ n : ℤ, riskScore findings = (n : ℚ) / 10)
    ∧ (∀ (classify : Chunk → List RawFinding) (chunks : List Chunk),
        collectFindings classify chunks = [] →
        (analyze_content classify chunks).risk_score = 0)
    ∧ riskScore [finding76, finding87] = (9.8 : ℚ) := by
  have hnn : 0 ≤ totalRisk findings :=
    totalRisk_nonneg findings (fun f hf => ⟨by linarith [(hrange f hf).1],
      by linarith [(hrange f hf).2.2.1]⟩)
  have hmin0 : 0 ≤ min (totalRisk findings) 10 := le_min hnn (by norm_num)
  have hmin10 : min (totalRisk findings) 10 ≤ 10 := min_le_right _ _
  obtain ⟨hb0, hb10⟩ := pyRound1_bounds _ hmin0 hmin10
  refine ⟨?_, hb0, hb10, ⟨roundHalfEven (10 * min (totalRisk findings) 10), rfl⟩, ?_, ?_⟩
  · unfold riskScore specRiskFormula
    rw [totalRisk_eq, min_comm]
  · intro classify chunks hcf
    unfold analyze_content
    by_cases hch : chunks = []
    · rw [if_pos hch]; rfl
    · rw [if_neg hch]
      simp only [hcf]
      rfl
  · show pyRound1 (min (totalRisk [finding76, finding87]) 10) = (9.8 : ℚ)
    have ht : totalRisk [finding76, finding87] = 49/5 := by
      norm_num [totalRisk, finding76, finding87]
    rw [ht, min_eq_left (by norm_num),
      pyRound1_eq_of_mul_eq_int (49/5) 98 (by norm_num)]
    norm_num

/-- Witness for C1 at the two-finding list of the end-to-end scenario. -/
theorem claim_C1_witness :
    0 ≤ riskScore [finding76, finding87] ∧ riskScore [finding76, finding87] ≤ 10 ∧
      riskScore [finding76, finding87] = (9.8 : ℚ) := by
  have h := claim_C1 [finding76, finding87]
    (by
      intro f hf
      rcases List.mem_cons.mp hf with rfl | hf2
      · norm_num [finding76]
      · rcases List.mem_cons.mp hf2 with rfl | hf3
        · norm_num [finding87]
        · cases hf3)
  exact ⟨h.2.1, h.2.2.1, h.2.2.2.2.2⟩

/-- C2: `analyze_content` flags negative news exactly when at least one
finding was collected, and with no chunks or no findings it returns a
clean negative result (flag false, risk 0, empty findings, key concerns
and sources) instead of raising. -/
theorem claim_C2 (classify : Chunk → List RawFinding) (chunks : List Chunk) :
    ((analyze_content classify chunks).has_negative_news = true ↔
      collectFindings classify chunks ≠ [])
    ∧ (chunks = [] → analyze_content classify chunks = cleanAnalysisNoContent)
    ∧ (collectFindings classify chunks = [] →
        (analyze_content classify chunks).has_negative_news = false ∧
        (analyze_content classify chunks).risk_score = 0 ∧
        (analyze_content classify chunks).findings = [] ∧
        (analyze_content classify chunks).key_concerns = [] ∧
        (analyze_content classify chunks).sources = []) := by
  by_cases hch : chunks = []
  · subst hch
    refine ⟨?_, fun _ => by simp [analyze_content],
      fun _ => by simp [analyze_content, cleanAnalysisNoContent]⟩
    simp [analyze_content, collectFindings, cleanAnalysisNoContent]
  · by_cases hcf : collectFindings classify chunks = []
    · have h : analyze_content classify chunks = cleanAnalysisNoFindings := by
        unfold analyze_content
        rw [if_neg hch]
        simp only [hcf]
        rfl
      refine ⟨?_, fun hh => absurd hh hch, fun _ => by rw [h]; exact ⟨rfl, rfl, rfl, rfl, rfl⟩⟩
      rw [h]
      simp [cleanAnalysisNoFindings, hcf]
    · have h : (analyze_content classify chunks).has_negative_news = true := by
        unfold analyze_content
        rw [if_neg hch]
        simp only [if_neg hcf]
      refine ⟨?_, fun hh => absurd hh hch, fun hh => absurd hh hcf⟩
      simp [h, hcf]

/-- Witness for C2 at a concrete classifier and chunk list. -/
theorem claim_C2_witness :
    analyze_content (fun _ => []) [] = cleanAnalysisNoContent ∧
      ((analyze_content (fun _ => []) []).has_negative_news = true ↔
        collectFindings (fun _ => []) [] ≠ []) :=
  ⟨(claim_C2 (fun _ => []) []).2.1 rfl, (claim_C2 (fun _ => []) []).1⟩

/-- C5 (evaluating the code at the failing input): the code's
key-concern grouping keeps the description of the FIRST finding of each
type, not the highest-scoring one — for two findings of type `T`, first
(severity 1, confidence 1, description "a") then (severity 10,
confidence 10, description "b"), the code compares `10*10` against the
already-updated group sums `(1+10)*(1+10)` and therefore keeps "a",
while the claim requires the highest-scoring description "b". -/
theorem claim_C5_eval :
    keyConcerns [lowFindingT, highFindingT] = ["T: a".data] ∧
      keyConcerns [lowFindingT, highFindingT] ≠ ["T: b".data] := by
  have h : keyConcerns [lowFindingT, highFindingT] = ["T: a".data] := by
    norm_num [keyConcerns, findingGroups, insertFinding, updateGroup, sortGroups,
      insertSorted, keyGE, groupKey, lowFindingT, highFindingT]
  refine ⟨h, ?_⟩
  rw [h]
  decide

/-- Witness for C4 at the concrete 3999-character document, whose single
paragraph has length 3999 ≤ 3999. -/
theorem claim_C4_witness :
    (∀ i c, (docChunks oversizeDoc)[i]? = some c → i + 1 < (docChunks oversizeDoc).length →
        (mkHeader oversizeDoc).length + 2000 ≤ c.text.length)
    ∧ ∀ c ∈ docChunks oversizeDoc,
        c.text.length ≤ (mkHeader oversizeDoc).length + 2 * (1999 + 2 * 3999) :=
  claim_C4 oversizeDoc 3999
    (fun p hp => by
      have h1 : p ∈ splitOnNl oversizeDoc.content := (List.mem_filter.mp hp).1
      have h2 : splitOnNl oversizeDoc.content = [oversizeDoc.content] := by
        apply splitOnNl_no_newline
        intro c hc
        have : c = 'a' := List.eq_of_mem_replicate hc
        subst this
        decide
      rw [h2] at h1
      simp only [List.mem_singleton] at h1
      subst h1
      rw [oversize_content_len])

/-! ## Lemmas about the search adapter, and claim C8 -/

theorem dedupLoop_pairwise : ∀ (rs : List SearchResult) (seen : List Str),
    List.Pairwise (fun a b => a.url ≠ b.url) (dedupLoop rs seen) ∧
    ∀ r ∈ dedupLoop rs seen, r.url ∉ seen := by
  intro rs
  induction rs with
  | nil => intro seen; exact ⟨List.Pairwise.nil, by simp [dedupLoop]⟩
  | cons r rs ih =>
    intro seen
    by_cases hm : r.url ∈ seen
    · simpa [dedupLoop, hm] using ih seen
    · obtain ⟨hpw, hseen⟩ := ih (r.url :: seen)
      simp only [dedupLoop, if_neg hm]
      constructor
      · refine List.Pairwise.cons ?_ hpw
        intro b hb heq
        exact (hseen b hb) (by simp [← heq])
      · intro x hx
        rcases List.mem_cons.mp hx with rfl | hx
        · exact hm
        · have := hseen x hx
          intro hx2
          exact this (by simp [hx2])

theorem dedupLoop_filter : ∀ (rs : List SearchResult) (seen : List Str) (u : Str),
    (u ∉ seen → (dedupLoop rs seen).filter (fun r => decide (r.url = u)) =
      (rs.filter (fun r => decide (r.url = u))).take 1) ∧
    (u ∈ seen → (dedupLoop rs seen).filter (fun r => decide (r.url = u)) = []) := by
  intro rs
  induction rs with
  | nil => intro seen u; exact ⟨fun _ => by simp [dedupLoop], fun _ => by simp [dedupLoop]⟩
  | cons r rs ih =>
    intro seen u
    by_cases hm : r.url ∈ seen
    · constructor
      · intro hu
        have hur : r.url ≠ u := fun h => hu (h ▸ hm)
        simp only [dedupLoop, if_pos hm, List.filter_cons, decide_eq_true_eq, if_neg hur]
        exact (ih seen u).1 hu
      · intro hu
        simp only [dedupLoop, if_pos hm]
        exact (ih seen u).2 hu
    · constructor
      · intro hu
        by_cases hru : r.url = u
        · subst hru
          simp only [dedupLoop, if_neg hm, List.filter_cons, decide_eq_true_eq, if_pos rfl]
          rw [(ih (r.url :: seen) r.url).2 (by simp)]
          simp
        · simp only [dedupLoop, if_neg hm, List.filter_cons, decide_eq_true_eq, if_neg hru]
          exact (ih (r.url :: seen) u).1 (by simp [hru, hu]; exact fun h => hru h.symm)
      · intro hu
        have hur : r.url ≠ u := fun h => hm (h ▸ hu)
        simp only [dedupLoop, if_neg hm, List.filter_cons, decide_eq_true_eq, if_neg hur]
        exact (ih (r.url :: seen) u).2 (by simp [hu])

/-- C8: for every query set, the returned result list is deduplicated by
URL (no two entries share a URL; the first occurrence of each URL wins),
is the dedup of all collected results truncated to the configured cap,
and is the empty list — never an error — when every query fails. -/
theorem claim_C8 (performSearch : Str → Option (List SearchResult))
    (input : SearchInput) (top_k : ℕ) :
    List.Pairwise (fun a b => a.url ≠ b.url) (call_web_search performSearch input top_k)
    ∧ call_web_search performSearch input top_k =
        (dedupByUrl ((selectQueries input).flatMap (fun q => (performSearch q).getD []))).take top_k
    ∧ (∀ u : Str,
        (dedupByUrl ((selectQueries input).flatMap (fun q => (performSearch q).getD []))).filter
            (fun r => decide (r.url = u)) =
          (((selectQueries input).flatMap (fun q => (performSearch q).getD [])).filter
            (fun r => decide (r.url = u))).take 1)
    ∧ ((∀ q, performSearch q = none) → call_web_search performSearch input top_k = []) := by
  refine ⟨?_, rfl, ?_, ?_⟩
  · exact ((dedupLoop_pairwise _ []).1).sublist (List.take_sublist _ _)
  · intro u
    exact (dedupLoop_filter _ [] u).1 (by simp)
  · intro hfail
    show (dedupByUrl ((selectQueries input).flatMap (fun q => (performSearch q).getD []))).take top_k = []
    have : (selectQueries input).flatMap (fun q => (performSearch q).getD []) = [] := by
      simp [hfail]
    rw [this]
    simp [dedupByUrl, dedupLoop]

/-- Witness for C8: a concrete provider that fails on every query yields
the empty, trivially deduplicated result list. -/
theorem claim_C8_witness :
    call_web_search (fun _ => none) ⟨["q".data], [], "X".data⟩ 10 = [] ∧
      List.Pairwise (fun a b => a.url ≠ b.url)
        (call_web_search (fun _ => none) ⟨["q".data], [], "X".data⟩ 10) :=
  ⟨(claim_C8 (fun _ => none) ⟨["q".data], [], "X".data⟩ 10).2.2.2 (fun _ => rfl),
   (claim_C8 (fun _ => none) ⟨["q".data], [], "X".data⟩ 10).1⟩

end NewsVerifier

namespace NewsVerifier

/-! ## Lemmas about the JSON model: characters, whitespace, strings, numerals -/

theorem ne_of_isDigit {c x : Char} (h : isDigitChar c = true) (hx : isDigitChar x = false) :
    ¬(c = x) := fun he => by rw [he, hx] at h; exact Bool.noConfusion h

theorem jsonWs_of_isDigit {c : Char} (h : isDigitChar c = true) : jsonWsChar c = false := by
  have h1 := ne_of_isDigit h (show isDigitChar ' ' = false by decide)
  have h2 := ne_of_isDigit h (show isDigitChar '\t' = false by decide)
  have h3 := ne_of_isDigit h (show isDigitChar '\n' = false by decide)
  have h4 := ne_of_isDigit h (show isDigitChar '\r' = false by decide)
  simp [jsonWsChar, h1, h2, h3, h4]

theorem skipWs_cons {c : Char} (cs : Str) (h : jsonWsChar c = false) :
    skipWs (c :: cs) = c :: cs := by
  simp [skipWs, List.dropWhile_cons, h]

theorem parseVal_ws (fuel : ℕ) {c : Char} (cs : Str) (h : jsonWsChar c = true) :
    parseVal fuel (c :: cs) = parseVal fuel cs := by
  cases fuel with
  | zero => rfl
  | succ f =>
    have hsk : skipWs (c :: cs) = skipWs cs := by simp [skipWs, List.dropWhile_cons, h]
    rw [parseVal, parseVal, hsk]

theorem digitChar_isDigit {d : ℕ} (h : d < 10) : isDigitChar (digitChar d) = true := by
  interval_cases d <;> decide

theorem digitVal_digitChar {d : ℕ} (h : d < 10) : digitVal (digitChar d) = d := by
  interval_cases d <;> decide

theorem escapeChar_wf {c : Char} (h : wfChar c = true) : escapeChar c = [c] := by
  simp only [wfChar, Bool.and_eq_true, Bool.not_eq_true', decide_eq_false_iff_not,
    decide_eq_true_eq] at h
  obtain ⟨⟨h32, hq⟩, hb⟩ := h
  unfold escapeChar
  rw [if_neg hq, if_neg hb,
    if_neg (fun he => absurd (he ▸ h32) (by decide)),
    if_neg (fun he => absurd (he ▸ h32) (by decide)),
    if_neg (fun he => absurd (he ▸ h32) (by decide)),
    if_neg (fun he => absurd (he ▸ h32) (by decide)),
    if_neg (fun he => absurd (he ▸ h32) (by decide))]

theorem escapeStr_wf {s : Str} (h : wfStr s = true) : escapeStr s = s := by
  induction s with
  | nil => rfl
  | cons c t ih =>
    simp only [wfStr, List.all_cons, Bool.and_eq_true] at h
    simp only [escapeStr, List.flatMap_cons] at *
    rw [escapeChar_wf h.1]
    have := ih (by simp [wfStr, h.2])
    simp only [escapeStr] at this
    rw [this]
    rfl

theorem parseStringBody_wf : ∀ (s rest : Str), wfStr s = true →
    parseStringBody (s ++ quoteChar :: rest) = some (s, rest) := by
  intro s
  induction s with
  | nil =>
    intro rest _
    show parseStringBody (quoteChar :: rest) = _
    rw [parseStringBody.eq_def]
    simp
  | cons c t ih =>
    intro rest hwf
    simp only [wfStr, List.all_cons, Bool.and_eq_true] at hwf
    have hc := hwf.1
    simp only [wfChar, Bool.and_eq_true, Bool.not_eq_true', decide_eq_false_iff_not,
      decide_eq_true_eq] at hc
    obtain ⟨⟨_, hq⟩, hb⟩ := hc
    rw [List.cons_append, parseStringBody.eq_def]
    simp only [if_neg hq, if_neg hb]
    rw [ih rest (by simp [wfStr, hwf.2])]
    rfl

theorem natToCharsGo_eq : ∀ (fuel n : ℕ) (acc : Str), n ≤ fuel →
    natToCharsGo fuel n acc = ((Nat.digits 10 n).map digitChar).reverse ++ acc := by
  intro fuel
  induction fuel with
  | zero =>
    intro n acc h
    have : n = 0 := by omega
    subst this
    simp [natToCharsGo]
  | succ f ih =>
    intro n acc h
    by_cases h0 : n = 0
    · subst h0
      simp [natToCharsGo]
    · have hrec := ih (n / 10) (digitChar (n % 10) :: acc)
        (by have := Nat.div_lt_self (Nat.pos_of_ne_zero h0) (by norm_num : 1 < 10); omega)
      simp only [natToCharsGo, if_neg h0]
      rw [hrec, Nat.digits_def' (by norm_num : 1 < 10) (Nat.pos_of_ne_zero h0)]
      simp [List.append_assoc]

theorem natToChars_eq (n : ℕ) :
    natToChars n = if n = 0 then [digitChar 0] else ((Nat.digits 10 n).map digitChar).reverse := by
  unfold natToChars
  by_cases h0 : n = 0
  · simp [h0]
  · rw [if_neg h0, if_neg h0, natToCharsGo_eq (n + 1) n [] (by omega)]
    simp

theorem natToChars_all_digits (n : ℕ) : ∀ c ∈ natToChars n, isDigitChar c = true := by
  intro c hc
  rw [natToChars_eq] at hc
  by_cases h0 : n = 0
  · rw [if_pos h0] at hc
    simp only [List.mem_singleton] at hc
    subst hc
    decide
  · rw [if_neg h0] at hc
    rw [List.mem_reverse] at hc
    obtain ⟨d, hd, rfl⟩ := List.mem_map.mp hc
    exact digitChar_isDigit (Nat.digits_lt_base (by norm_num) hd)

theorem natToChars_ne_nil (n : ℕ) : natToChars n ≠ [] := by
  rw [natToChars_eq]
  by_cases h0 : n = 0
  · simp [h0]
  · rw [if_neg h0]
    simp only [ne_eq, List.reverse_eq_nil_iff, List.map_eq_nil_iff]
    exact Nat.digits_ne_nil_iff_ne_zero.mpr h0

theorem parseDigitsAux_spec : ∀ (ds : List ℕ) (acc : ℕ) (rest : Str),
    (∀ d ∈ ds, d < 10) → noLeadDigit rest = true →
    parseDigitsAux (ds.map digitChar ++ rest) acc =
      (ds.foldl (fun a d => 10 * a + d) acc, rest) := by
  intro ds
  induction ds with
  | nil =>
    intro acc rest _ hrest
    cases rest with
    | nil => rfl
    | cons c cs =>
      simp only [noLeadDigit, Bool.not_eq_true'] at hrest
      simp [parseDigitsAux, hrest]
  | cons d ds ih =>
    intro acc rest hds hrest
    have hd : d < 10 := hds d (by simp)
    simp only [List.map_cons, List.cons_append, parseDigitsAux,
      if_pos (digitChar_isDigit hd), digitVal_digitChar hd, List.foldl_cons]
    exact ih _ rest (fun e he => hds e (by simp [he])) hrest

theorem foldl_digits_reverse (l : List ℕ) : ∀ acc : ℕ,
    (l.reverse).foldl (fun a d => 10 * a + d) acc = acc * 10 ^ l.length + Nat.ofDigits 10 l := by
  induction l with
  | nil => intro acc; simp [Nat.ofDigits_nil]
  | cons d t ih =>
    intro acc
    rw [List.reverse_cons, List.foldl_append, ih acc]
    simp only [List.foldl_cons, List.foldl_nil, Nat.ofDigits_cons, List.length_cons]
    ring

end NewsVerifier

namespace NewsVerifier

theorem parseNat_natToChars (m : ℕ) (rest : Str) (hrest : noLeadDigit rest = true) :
    parseNat (natToChars m ++ rest) = some (m, rest) := by
  by_cases h0 : m = 0
  · subst h0
    have h1 : natToChars 0 = ['0'] := by decide
    rw [h1]
    cases rest with
    | nil => rfl
    | cons c cs =>
      simp only [noLeadDigit, Bool.not_eq_true'] at hrest
      simp only [List.cons_append, List.nil_append, parseNat.eq_def]
      simp [hrest]
  · have hL : Nat.digits 10 m ≠ [] := Nat.digits_ne_nil_iff_ne_zero.mpr h0
    have hshape : natToChars m = ((Nat.digits 10 m).reverse).map digitChar := by
      rw [natToChars_eq, if_neg h0, List.map_reverse]
    cases hrev : (Nat.digits 10 m).reverse with
    | nil => exact absurd (by simpa using hrev) hL
    | cons d0 ds =>
      have hd0mem : d0 ∈ Nat.digits 10 m := by
        rw [← List.mem_reverse, hrev]; simp
      have hd0lt : d0 < 10 := Nat.digits_lt_base (by norm_num) hd0mem
      have hlast : (Nat.digits 10 m).getLast? = some d0 := by
        rw [← List.head?_reverse, hrev]; rfl
      have hd0ne : d0 ≠ 0 := by
        have hgl := Nat.getLast_digit_ne_zero 10 h0
        rw [List.getLast?_eq_getLast _ hL] at hlast
        have h2 := Option.some.inj hlast
        rw [← h2]
        exact hgl
      have hchar_ne : ¬(digitChar d0 = '0') := by
        intro he
        apply hd0ne
        have h1 : digitVal (digitChar d0) = d0 := digitVal_digitChar hd0lt
        rw [he] at h1
        simpa using h1.symm
      rw [hshape, hrev]
      simp only [List.map_cons, List.cons_append, parseNat.eq_def]
      rw [if_neg hchar_ne, if_pos (digitChar_isDigit hd0lt), digitVal_digitChar hd0lt]
      rw [parseDigitsAux_spec ds d0 rest
        (fun e he => Nat.digits_lt_base (by norm_num)
          (by rw [← List.mem_reverse, hrev]; simp [he])) hrest]
      have hfold := foldl_digits_reverse (Nat.digits 10 m) 0
      rw [hrev] at hfold
      simp only [List.foldl_cons, Nat.ofDigits_digits, Nat.zero_mul, Nat.zero_add,
        Nat.mul_zero, Nat.add_zero] at hfold
      rw [hfold]

theorem parseIntTok_intToChars (n : ℤ) (rest : Str) (hrest : noLeadDigit rest = true) :
    parseIntTok (intToChars n ++ rest) = some (n, rest) := by
  by_cases hn : n < 0
  · unfold intToChars
    rw [if_pos hn]
    simp only [List.cons_append, parseIntTok.eq_def]
    simp only [if_true]
    rw [parseNat_natToChars n.natAbs rest hrest]
    simp only [Option.map_some']
    have habs : -((n.natAbs : ℕ) : ℤ) = n := by omega
    rw [habs]
  · unfold intToChars
    rw [if_neg hn]
    cases hsh : natToChars n.natAbs with
    | nil => exact absurd hsh (natToChars_ne_nil _)
    | cons c t =>
      have hcdig : isDigitChar c = true := by
        apply natToChars_all_digits n.natAbs
        rw [hsh]; simp
      have hcne : ¬(c = '-') := ne_of_isDigit hcdig (by decide)
      simp only [List.cons_append, parseIntTok.eq_def]
      rw [if_neg hcne, show (c :: (t ++ rest)) = (c :: t) ++ rest by simp, ← hsh,
        parseNat_natToChars n.natAbs rest hrest]
      simp only [Option.map_some']
      have habs : ((n.natAbs : ℕ) : ℤ) = n := by omega
      rw [habs]

end NewsVerifier

namespace NewsVerifier

theorem appendL_nil : ∀ l : JsonList, appendL l .nil = l
  | .nil => rfl
  | .cons a t => by rw [appendL, appendL_nil t]

theorem appendM_nil : ∀ m : JsonMembers, appendM m .nil = m
  | .nil => rfl
  | .cons k v t => by rw [appendM, appendM_nil t]

theorem appendL_single_cons : ∀ (acc : JsonList) (j : Json) (t : JsonList),
    appendL (appendL acc (.cons j .nil)) t = appendL acc (.cons j t)
  | .nil, _, _ => rfl
  | .cons a acc, j, t => by
    rw [appendL, appendL, appendL, appendL_single_cons acc j t]

theorem appendM_single_cons : ∀ (acc : JsonMembers) (k : Str) (v : Json) (t : JsonMembers),
    appendM (appendM acc (.cons k v .nil)) t = appendM acc (.cons k v t)
  | .nil, _, _, _ => rfl
  | .cons k0 v0 acc, k, v, t => by
    rw [appendM, appendM, appendM, appendM_single_cons acc k v t]

theorem sizeJ_pos (j : Json) : 1 ≤ sizeJ j := by
  cases j <;> simp [sizeJ]

theorem sizeL_pos (l : JsonList) : 1 ≤ sizeL l := by
  cases l with
  | nil => simp [sizeL]
  | cons a t => simp [sizeL]; omega

theorem sizeM_pos (m : JsonMembers) : 1 ≤ sizeM m := by
  cases m with
  | nil => simp [sizeM]
  | cons k v t => simp [sizeM]; omega

theorem intToChars_head (n : ℤ) :
    ∃ c t, intToChars n = c :: t ∧ (c = '-' ∨ isDigitChar c = true) := by
  unfold intToChars
  by_cases hn : n < 0
  · exact ⟨'-', natToChars n.natAbs, by rw [if_pos hn], Or.inl rfl⟩
  · cases hsh : natToChars n.natAbs with
    | nil => exact absurd hsh (natToChars_ne_nil _)
    | cons c t =>
      refine ⟨c, t, by rw [if_neg hn], Or.inr ?_⟩
      apply natToChars_all_digits n.natAbs
      rw [hsh]; simp

theorem dumpsJ_head (j : Json) : ∃ c t, dumpsJ j = c :: t ∧
    (c = quoteChar ∨ c = lbrace ∨ c = '[' ∨ c = 'n' ∨ c = 't' ∨ c = 'f' ∨
      c = '-' ∨ isDigitChar c = true) := by
  cases j with
  | null => exact ⟨'n', _, rfl, by simp⟩
  | bool b =>
    cases b with
    | true => exact ⟨'t', _, rfl, by simp⟩
    | false => exact ⟨'f', _, rfl, by simp⟩
  | num n =>
    obtain ⟨c, t, hsh, hc⟩ := intToChars_head n
    exact ⟨c, t, by rw [show dumpsJ (Json.num n) = intToChars n from rfl, hsh], by tauto⟩
  | str s => exact ⟨quoteChar, _, rfl, by simp⟩
  | arr l =>
    cases l with
    | nil => exact ⟨'[', _, rfl, by simp⟩
    | cons a t => exact ⟨'[', _, rfl, by simp⟩
  | obj m =>
    cases m with
    | nil => exact ⟨lbrace, _, rfl, by simp⟩
    | cons k v t => exact ⟨lbrace, _, rfl, by simp⟩

theorem headStart_facts {c : Char}
    (h : c = quoteChar ∨ c = lbrace ∨ c = '[' ∨ c = 'n' ∨ c = 't' ∨ c = 'f' ∨
      c = '-' ∨ isDigitChar c = true) :
    jsonWsChar c = false ∧ ¬(c = ']') ∧ ¬(c = rbrace) := by
  rcases h with rfl | rfl | rfl | rfl | rfl | rfl | rfl | hd
  · exact ⟨by decide, by decide, by decide⟩
  · exact ⟨by decide, by decide, by decide⟩
  · exact ⟨by decide, by decide, by decide⟩
  · exact ⟨by decide, by decide, by decide⟩
  · exact ⟨by decide, by decide, by decide⟩
  · exact ⟨by decide, by decide, by decide⟩
  · exact ⟨by decide, by decide, by decide⟩
  · exact ⟨jsonWs_of_isDigit hd, ne_of_isDigit hd (by decide), ne_of_isDigit hd (by decide)⟩

theorem arrTail_noLeadDigit (t : JsonList) (rest : Str) :
    noLeadDigit (dumpsArrTail t ++ ']' :: rest) = true := by
  cases t <;> rfl

theorem objTail_noLeadDigit (t : JsonMembers) (rest : Str) :
    noLeadDigit (dumpsObjTail t ++ rbrace :: rest) = true := by
  cases t <;> rfl

end NewsVerifier

namespace NewsVerifier

theorem parseMember_ws (fuel : ℕ) {c : Char} (cs : Str) (h : jsonWsChar c = true) :
    parseMember fuel (c :: cs) = parseMember fuel cs := by
  cases fuel with
  | zero => rfl
  | succ f =>
    have hsk : skipWs (c :: cs) = skipWs cs := by simp [skipWs, List.dropWhile_cons, h]
    rw [parseMember, parseMember, hsk]

set_option maxHeartbeats 1000000 in
theorem parse_dumps : ∀ fuel : ℕ,
    (∀ (j : Json) (rest : Str), wfJson j = true → noLeadDigit rest = true → sizeJ j ≤ fuel →
      parseVal fuel (dumpsJ j ++ rest) = some (j, rest)) ∧
    (∀ (acc : JsonList) (l : JsonList) (rest : Str), wfList l = true → sizeL l ≤ fuel →
      parseArrRest fuel acc (dumpsArrTail l ++ ']' :: rest) =
        some (.arr (appendL acc l), rest)) ∧
    (∀ (k : Str) (v : Json) (rest : Str), wfStr k = true → wfJson v = true →
        noLeadDigit rest = true → sizeJ v + 1 ≤ fuel →
      parseMember fuel (dumpsMember k v ++ rest) = some (k, v, rest)) ∧
    (∀ (acc : JsonMembers) (m : JsonMembers) (rest : Str), wfMembers m = true → sizeM m ≤ fuel →
      parseObjRest fuel acc (dumpsObjTail m ++ rbrace :: rest) =
        some (.obj (appendM acc m), rest)) := by
  intro fuel
  induction fuel using Nat.strong_induction_on with
  | _ fuel ih =>
  cases fuel with
  | zero =>
    refine ⟨?_, ?_, ?_, ?_⟩
    · intro j _ _ _ hsz; exact absurd hsz (by have := sizeJ_pos j; omega)
    · intro _ l _ _ hsz; exact absurd hsz (by have := sizeL_pos l; omega)
    · intro _ v _ _ _ _ hsz; exact absurd hsz (by have := sizeJ_pos v; omega)
    · intro _ m _ _ hsz; exact absurd hsz (by have := sizeM_pos m; omega)
  | succ f =>
  obtain ⟨ihA, ihB, ihM, ihO⟩ := ih f (by omega)
  refine ⟨?_, ?_, ?_, ?_⟩
  · -- parseVal applied to a serialized value
    intro j rest hwf hrest hsz
    cases j with
    | null =>
      show parseVal (f + 1) ('n' :: 'u' :: 'l' :: 'l' :: rest) = some (Json.null, rest)
      rw [parseVal, skipWs_cons _ (by decide)]
      simp [List.isPrefixOf, show ¬('n' = quoteChar) by decide, show ¬('n' = lbrace) by decide]
    | bool b =>
      cases b with
      | true =>
        show parseVal (f + 1) ('t' :: 'r' :: 'u' :: 'e' :: rest) = some (Json.bool true, rest)
        rw [parseVal, skipWs_cons _ (by decide)]
        simp [List.isPrefixOf, show ¬('t' = quoteChar) by decide, show ¬('t' = lbrace) by decide]
      | false =>
        show parseVal (f + 1) ('f' :: 'a' :: 'l' :: 's' :: 'e' :: rest) =
          some (Json.bool false, rest)
        rw [parseVal, skipWs_cons _ (by decide)]
        simp [List.isPrefixOf, show ¬('f' = quoteChar) by decide, show ¬('f' = lbrace) by decide]
    | num n =>
      obtain ⟨c, t, hsh, hc⟩ := intToChars_head n
      have hws : jsonWsChar c = false := by
        rcases hc with rfl | hd
        · decide
        · exact jsonWs_of_isDigit hd
      have hnq : ¬(c = quoteChar) := by
        rcases hc with rfl | hd
        · decide
        · exact ne_of_isDigit hd (by decide)
      have hnlb : ¬(c = lbrace) := by
        rcases hc with rfl | hd
        · decide
        · exact ne_of_isDigit hd (by decide)
      have hnbk : ¬(c = '[') := by
        rcases hc with rfl | hd
        · decide
        · exact ne_of_isDigit hd (by decide)
      have hnn : ¬('n' = c) := by
        rcases hc with rfl | hd
        · decide
        · exact fun he => (ne_of_isDigit hd (by decide)) he.symm
      have hnt : ¬('t' = c) := by
        rcases hc with rfl | hd
        · decide
        · exact fun he => (ne_of_isDigit hd (by decide)) he.symm
      have hnf : ¬('f' = c) := by
        rcases hc with rfl | hd
        · decide
        · exact fun he => (ne_of_isDigit hd (by decide)) he.symm
      have hnum : (decide (c = '-') || isDigitChar c) = true := by
        rcases hc with rfl | hd
        · simp
        · simp [hd]
      rw [show dumpsJ (Json.num n) = intToChars n from rfl, hsh, List.cons_append,
        parseVal, skipWs_cons _ hws]
      dsimp only
      rw [if_neg hnq, if_neg hnlb, if_neg hnbk]
      rw [if_neg (show ¬("null".data.isPrefixOf (c :: (t ++ rest)) = true) by
        simp [List.isPrefixOf, hnn])]
      rw [if_neg (show ¬("true".data.isPrefixOf (c :: (t ++ rest)) = true) by
        simp [List.isPrefixOf, hnt])]
      rw [if_neg (show ¬("false".data.isPrefixOf (c :: (t ++ rest)) = true) by
        simp [List.isPrefixOf, hnf])]
      rw [if_pos hnum, show (c :: (t ++ rest)) = (c :: t) ++ rest from rfl, ← hsh,
        parseIntTok_intToChars n rest hrest]
      rfl
    | str s =>
      have hwfs : wfStr s = true := hwf
      rw [show dumpsJ (Json.str s) = quoteChar :: (escapeStr s ++ [quoteChar]) from rfl,
        escapeStr_wf hwfs, List.cons_append, parseVal, skipWs_cons _ (by decide)]
      dsimp only
      rw [if_pos rfl, List.append_assoc, List.singleton_append,
        parseStringBody_wf s rest hwfs]
      rfl
    | arr l =>
      cases l with
      | nil =>
        show parseVal (f + 1) ('[' :: ']' :: rest) = some (Json.arr .nil, rest)
        rw [parseVal, skipWs_cons _ (by decide)]
        dsimp only
        rw [if_neg (by decide : ¬('[' = quoteChar)), if_neg (by decide : ¬('[' = lbrace)),
          if_pos rfl, skipWs_cons _ (by decide)]
        dsimp only
        rw [if_pos rfl]
      | cons a t =>
        have hwf2 : wfJson a = true ∧ wfList t = true := by
          have h2 : (wfJson a && wfList t) = true := hwf
          simpa using h2
        have hsz2 : 1 + (1 + sizeJ a + sizeL t) ≤ f + 1 := hsz
        have hsza : sizeJ a ≤ f := by
          have h1 := sizeL_pos t
          omega
        have hszt : sizeL t ≤ f := by
          have h1 := sizeJ_pos a
          omega
        obtain ⟨c, ct, hsh, hc⟩ := dumpsJ_head a
        obtain ⟨hws, hnrb, _⟩ := headStart_facts hc
        rw [show dumpsJ (Json.arr (.cons a t)) =
          '[' :: (dumpsJ a ++ dumpsArrTail t ++ [']']) from rfl, List.cons_append,
          parseVal, skipWs_cons _ (by decide)]
        dsimp only
        rw [if_neg (by decide : ¬('[' = quoteChar)), if_neg (by decide : ¬('[' = lbrace)),
          if_pos rfl]
        rw [List.append_assoc, List.append_assoc, List.singleton_append, hsh,
          List.cons_append, skipWs_cons _ hws]
        dsimp only
        rw [if_neg hnrb, ← List.cons_append, ← hsh,
          ihA a (dumpsArrTail t ++ ']' :: rest) hwf2.1 (arrTail_noLeadDigit t rest) hsza]
        dsimp only
        rw [ihB (.cons a .nil) t rest hwf2.2 hszt]
        rfl
    | obj m =>
      cases m with
      | nil =>
        show parseVal (f + 1) (lbrace :: rbrace :: rest) = some (Json.obj .nil, rest)
        rw [parseVal, skipWs_cons _ (by decide)]
        dsimp only
        rw [if_neg (by decide : ¬(lbrace = quoteChar)), if_pos rfl,
          skipWs_cons _ (by decide)]
        dsimp only
        rw [if_pos rfl]
      | cons k v t =>
        have h2 : ((wfStr k && wfJson v) && wfMembers t) = true := hwf
        rw [Bool.and_eq_true, Bool.and_eq_true] at h2
        have hwk : wfStr k = true := h2.1.1
        have hwv : wfJson v = true := h2.1.2
        have hwt : wfMembers t = true := h2.2
        have hsz2 : 1 + (1 + sizeJ v + sizeM t) ≤ f + 1 := hsz
        have hszv : sizeJ v + 1 ≤ f := by
          have h1 := sizeM_pos t
          omega
        have hszt : sizeM t ≤ f := by
          have h1 := sizeJ_pos v
          omega
        rw [show dumpsJ (Json.obj (.cons k v t)) =
          lbrace :: (dumpsMember k v ++ dumpsObjTail t ++ [rbrace]) from rfl,
          List.cons_append, parseVal, skipWs_cons _ (by decide)]
        dsimp only
        rw [if_neg (by decide : ¬(lbrace = quoteChar)), if_pos rfl]
        rw [List.append_assoc, List.append_assoc, List.singleton_append,
          show dumpsMember k v =
            quoteChar :: (escapeStr k ++ [quoteChar, ':', ' '] ++ dumpsJ v) from rfl,
          List.cons_append, skipWs_cons _ (by decide)]
        dsimp only
        rw [if_neg (by decide : ¬(quoteChar = rbrace)), ← List.cons_append,
          ← show dumpsMember k v =
            quoteChar :: (escapeStr k ++ [quoteChar, ':', ' '] ++ dumpsJ v) from rfl,
          ihM k v (dumpsObjTail t ++ rbrace :: rest) hwk hwv (objTail_noLeadDigit t rest) hszv]
        dsimp only
        rw [ihO (.cons k v .nil) t rest hwt hszt]
        rfl
  · -- parseArrRest applied to a serialized array tail
    intro acc l rest hwf hsz
    cases l with
    | nil =>
      show parseArrRest (f + 1) acc (']' :: rest) = some (Json.arr (appendL acc .nil), rest)
      rw [parseArrRest, skipWs_cons _ (by decide)]
      dsimp only
      rw [if_neg (by decide : ¬(']' = ',')), if_pos rfl, appendL_nil]
    | cons a t =>
      have hwf2 : wfJson a = true ∧ wfList t = true := by
        have h2 : (wfJson a && wfList t) = true := hwf
        simpa using h2
      have hsz2 : 1 + sizeJ a + sizeL t ≤ f + 1 := hsz
      have hsza : sizeJ a ≤ f := by
        have h1 := sizeL_pos t
        omega
      have hszt : sizeL t ≤ f := by
        have h1 := sizeJ_pos a
        omega
      rw [show dumpsArrTail (.cons a t) = ',' :: ' ' :: (dumpsJ a ++ dumpsArrTail t) from rfl,
        List.cons_append, List.cons_append, parseArrRest, skipWs_cons _ (by decide)]
      dsimp only
      rw [if_pos rfl, parseVal_ws f _ (by decide), List.append_assoc,
        ihA a (dumpsArrTail t ++ ']' :: rest) hwf2.1 (arrTail_noLeadDigit t rest) hsza]
      dsimp only
      rw [ihB (appendL acc (.cons a .nil)) t rest hwf2.2 hszt, appendL_single_cons]
  · -- parseMember applied to a serialized member
    intro k v rest hwk hwv hrest hszv
    rw [show dumpsMember k v =
        quoteChar :: (escapeStr k ++ [quoteChar, ':', ' '] ++ dumpsJ v) from rfl,
      escapeStr_wf hwk, List.cons_append, parseMember, skipWs_cons _ (by decide)]
    dsimp only
    rw [if_pos rfl, List.append_assoc, List.append_assoc,
      show ([quoteChar, ':', ' '] ++ (dumpsJ v ++ rest) : Str) =
        quoteChar :: ':' :: ' ' :: (dumpsJ v ++ rest) from rfl,
      parseStringBody_wf k (':' :: ' ' :: (dumpsJ v ++ rest)) hwk]
    dsimp only
    rw [skipWs_cons _ (by decide)]
    dsimp only
    rw [if_pos rfl, parseVal_ws f _ (by decide), ihA v rest hwv hrest (by omega)]
  · -- parseObjRest applied to a serialized object tail
    intro acc m rest hwf hsz
    cases m with
    | nil =>
      show parseObjRest (f + 1) acc (rbrace :: rest) = some (Json.obj (appendM acc .nil), rest)
      rw [parseObjRest, skipWs_cons _ (by decide)]
      dsimp only
      rw [if_neg (by decide : ¬(rbrace = ',')), if_pos rfl, appendM_nil]
    | cons k v t =>
      have h2 : ((wfStr k && wfJson v) && wfMembers t) = true := hwf
      rw [Bool.and_eq_true, Bool.and_eq_true] at h2
      have hwk : wfStr k = true := h2.1.1
      have hwv : wfJson v = true := h2.1.2
      have hwt : wfMembers t = true := h2.2
      have hsz2 : 1 + sizeJ v + sizeM t ≤ f + 1 := hsz
      have hszv : sizeJ v + 1 ≤ f := by
        have h1 := sizeM_pos t
        omega
      have hszt : sizeM t ≤ f := by
        have h1 := sizeJ_pos v
        omega
      rw [show dumpsObjTail (.cons k v t) =
          ',' :: ' ' :: (dumpsMember k v ++ dumpsObjTail t) from rfl,
        List.cons_append, List.cons_append, parseObjRest, skipWs_cons _ (by decide)]
      dsimp only
      rw [if_pos rfl, parseMember_ws f _ (by decide), List.append_assoc,
        ihM k v (dumpsObjTail t ++ rbrace :: rest) hwk hwv (objTail_noLeadDigit t rest) hszv]
      dsimp only
      rw [ihO (appendM acc (.cons k v .nil)) t rest hwt hszt, appendM_single_cons]

mutual
theorem sizeJ_le_dumps : ∀ j : Json, sizeJ j ≤ 2 * (dumpsJ j).length
  | .null => by decide
  | .bool b => by cases b <;> decide
  | .num n => by
    obtain ⟨c, t, hsh, _⟩ := intToChars_head n
    rw [show dumpsJ (Json.num n) = intToChars n from rfl, hsh]
    simp [sizeJ]
    omega
  | .str s => by
    rw [show dumpsJ (Json.str s) = quoteChar :: (escapeStr s ++ [quoteChar]) from rfl]
    simp [sizeJ]
    omega
  | .arr .nil => by decide
  | .arr (.cons a t) => by
    have ha := sizeJ_le_dumps a
    have ht := sizeL_le_arrTail t
    rw [show dumpsJ (Json.arr (.cons a t)) =
      '[' :: (dumpsJ a ++ dumpsArrTail t ++ [']']) from rfl]
    simp only [sizeJ, sizeL, List.length_cons, List.length_append, List.length_singleton]
    omega
  | .obj .nil => by decide
  | .obj (.cons k v t) => by
    have hv := sizeJ_le_dumps v
    have ht := sizeM_le_objTail t
    rw [show dumpsJ (Json.obj (.cons k v t)) =
      lbrace :: ((quoteChar :: (escapeStr k ++ [quoteChar, ':', ' '] ++ dumpsJ v)) ++
        dumpsObjTail t ++ [rbrace]) from rfl]
    simp only [sizeJ, sizeM, List.length_cons, List.length_append, List.length_singleton]
    omega
theorem sizeL_le_arrTail : ∀ l : JsonList, sizeL l ≤ 2 * (dumpsArrTail l).length + 2
  | .nil => by decide
  | .cons a t => by
    have ha := sizeJ_le_dumps a
    have ht := sizeL_le_arrTail t
    rw [show dumpsArrTail (.cons a t) = ',' :: ' ' :: (dumpsJ a ++ dumpsArrTail t) from rfl]
    simp only [sizeL, List.length_cons, List.length_append]
    omega
theorem sizeM_le_objTail : ∀ m : JsonMembers, sizeM m ≤ 2 * (dumpsObjTail m).length + 2
  | .nil => by decide
  | .cons k v t => by
    have hv := sizeJ_le_dumps v
    have ht := sizeM_le_objTail t
    rw [show dumpsObjTail (.cons k v t) =
      ',' :: ' ' :: ((quoteChar :: (escapeStr k ++ [quoteChar, ':', ' '] ++ dumpsJ v)) ++
        dumpsObjTail t) from rfl]
    simp only [sizeM, List.length_cons, List.length_append]
    omega
end

theorem json_loads_dumps (j : Json) (h : wfJson j = true) : json_loads (dumpsJ j) = some j := by
  have hb : sizeJ j ≤ 2 * (dumpsJ j).length + 2 := le_trans (sizeJ_le_dumps j) (by omega)
  have hp := (parse_dumps (2 * (dumpsJ j).length + 2)).1 j [] h rfl hb
  rw [List.append_nil] at hp
  unfold json_loads
  rw [hp]
  rfl

theorem plainChar_spec {c : Char} (h : plainChar c = true) :
    ¬(c = lbrace) ∧ ¬(c = rbrace) ∧ ¬(c = backtickChar) := by
  simp only [plainChar, Bool.and_eq_true, Bool.not_eq_true', decide_eq_false_iff_not] at h
  exact ⟨h.1.1, h.1.2, h.2⟩

theorem plain_of_isDigit {c : Char} (h : isDigitChar c = true) : plainChar c = true := by
  have h1 := ne_of_isDigit h (show isDigitChar lbrace = false by decide)
  have h2 := ne_of_isDigit h (show isDigitChar rbrace = false by decide)
  have h3 := ne_of_isDigit h (show isDigitChar backtickChar = false by decide)
  simp [plainChar, h1, h2, h3]

theorem intToChars_plain (n : ℤ) : (intToChars n).all plainChar = true := by
  have hdig : (natToChars n.natAbs).all plainChar = true := by
    rw [List.all_eq_true]
    intro c hc
    exact plain_of_isDigit (natToChars_all_digits n.natAbs c hc)
  unfold intToChars
  by_cases hn : n < 0
  · rw [if_pos hn]
    simp [List.all_cons, hdig]
    decide
  · rw [if_neg hn]
    exact hdig

mutual
theorem dumpsJ_flat_plain : ∀ v : Json, flatVal v = true → wfJson v = true →
    (dumpsJ v).all plainChar = true
  | .null, _, _ => by decide
  | .bool b, _, _ => by cases b <;> decide
  | .num n, _, _ => by
    rw [show dumpsJ (Json.num n) = intToChars n from rfl]
    exact intToChars_plain n
  | .str s, hf, hw => by
    have hs : s.all plainChar = true := hf
    rw [show dumpsJ (Json.str s) = quoteChar :: (escapeStr s ++ [quoteChar]) from rfl,
      escapeStr_wf hw]
    simp [List.all_cons, List.all_append, hs]
    decide
  | .arr .nil, _, _ => by decide
  | .arr (.cons a t), hf, hw => by
    have h2 : (flatVal a && flatValL t) = true := hf
    have h3 : (wfJson a && wfList t) = true := hw
    rw [Bool.and_eq_true] at h2 h3
    have ha := dumpsJ_flat_plain a h2.1 h3.1
    have ht := dumpsArrTail_flat_plain t h2.2 h3.2
    rw [show dumpsJ (Json.arr (.cons a t)) =
      '[' :: (dumpsJ a ++ dumpsArrTail t ++ [']']) from rfl]
    simp [List.all_cons, List.all_append, ha, ht]
    decide
  | .obj m, hf, _ => by
    exact absurd hf (by simp [flatVal])
theorem dumpsArrTail_flat_plain : ∀ l : JsonList, flatValL l = true → wfList l = true →
    (dumpsArrTail l).all plainChar = true
  | .nil, _, _ => by decide
  | .cons a t, hf, hw => by
    have h2 : (flatVal a && flatValL t) = true := hf
    have h3 : (wfJson a && wfList t) = true := hw
    rw [Bool.and_eq_true] at h2 h3
    have ha := dumpsJ_flat_plain a h2.1 h3.1
    have ht := dumpsArrTail_flat_plain t h2.2 h3.2
    rw [show dumpsArrTail (.cons a t) = ',' :: ' ' :: (dumpsJ a ++ dumpsArrTail t) from rfl]
    simp [List.all_cons, List.all_append, ha, ht]
    decide
end

theorem dumpsMember_plain (k : Str) (v : Json) (hk : k.all plainChar = true)
    (hkw : wfStr k = true) (hfv : flatVal v = true) (hwv : wfJson v = true) :
    (dumpsMember k v).all plainChar = true := by
  rw [show dumpsMember k v =
      quoteChar :: (escapeStr k ++ [quoteChar, ':', ' '] ++ dumpsJ v) from rfl,
    escapeStr_wf hkw]
  simp [List.all_cons, List.all_append, hk, dumpsJ_flat_plain v hfv hwv]
  decide

theorem dumpsObjTail_plain : ∀ m : JsonMembers, flatMembers m = true → wfMembers m = true →
    (dumpsObjTail m).all plainChar = true
  | .nil, _, _ => by decide
  | .cons k v t, hf, hw => by
    have h2 : ((k.all plainChar && flatVal v) && flatMembers t) = true := hf
    have h3 : ((wfStr k && wfJson v) && wfMembers t) = true := hw
    rw [Bool.and_eq_true, Bool.and_eq_true] at h2 h3
    have hm := dumpsMember_plain k v h2.1.1 h3.1.1 h2.1.2 h3.1.2
    rw [show dumpsMember k v =
        quoteChar :: (escapeStr k ++ [quoteChar, ':', ' '] ++ dumpsJ v) from rfl] at hm
    have ht := dumpsObjTail_plain t h2.2 h3.2
    rw [show dumpsObjTail (.cons k v t) =
      ',' :: ' ' :: ((quoteChar :: (escapeStr k ++ [quoteChar, ':', ' '] ++ dumpsJ v)) ++
        dumpsObjTail t) from rfl]
    simp only [List.all_cons, List.all_append, Bool.and_eq_true] at hm ⊢
    exact ⟨by decide, by decide, hm, ht⟩

theorem dumps_record_shape : ∀ m : JsonMembers, flatMembers m = true → wfMembers m = true →
    ∃ mid : Str, dumpsJ (.obj m) = lbrace :: (mid ++ [rbrace]) ∧ mid.all plainChar = true
  | .nil, _, _ => ⟨[], rfl, rfl⟩
  | .cons k v t, hf, hw => by
    have h2 : ((k.all plainChar && flatVal v) && flatMembers t) = true := hf
    have h3 : ((wfStr k && wfJson v) && wfMembers t) = true := hw
    rw [Bool.and_eq_true, Bool.and_eq_true] at h2 h3
    refine ⟨(quoteChar :: (escapeStr k ++ [quoteChar, ':', ' '] ++ dumpsJ v)) ++
      dumpsObjTail t, rfl, ?_⟩
    have hm := dumpsMember_plain k v h2.1.1 h3.1.1 h2.1.2 h3.1.2
    rw [show dumpsMember k v =
        quoteChar :: (escapeStr k ++ [quoteChar, ':', ' '] ++ dumpsJ v) from rfl] at hm
    have ht := dumpsObjTail_plain t h2.2 h3.2
    rw [List.all_append, hm, ht]
    rfl

theorem takeToRbrace_plain : ∀ mid : Str, mid.all plainChar = true →
    takeToRbrace (mid ++ [rbrace]) = some (mid ++ [rbrace])
  | [], _ => by
    show takeToRbrace [rbrace] = some [rbrace]
    rw [takeToRbrace]
    simp
  | c :: t, h => by
    rw [List.all_cons, Bool.and_eq_true] at h
    have hc := (plainChar_spec h.1).2.1
    rw [List.cons_append, takeToRbrace, if_neg hc, takeToRbrace_plain t h.2]
    rfl

theorem braceMatch_plain_append : ∀ (g s : Str), g.all plainChar = true →
    braceMatch (g ++ s) = braceMatch s
  | [], _, _ => rfl
  | c :: t, s, h => by
    rw [List.all_cons, Bool.and_eq_true] at h
    have hc := (plainChar_spec h.1).1
    rw [List.cons_append, braceMatch, if_neg hc, braceMatch_plain_append t s h.2]

theorem braceMatch_plain (g : Str) (h : g.all plainChar = true) : braceMatch g = none := by
  have := braceMatch_plain_append g [] h
  rw [List.append_nil] at this
  rw [this]
  rfl

theorem tripleBacktick_not_prefix {c : Char} (cs : Str) (hc : ¬(c = backtickChar)) :
    tripleBacktick.isPrefixOf (c :: cs) = false := by
  show ([backtickChar, backtickChar, backtickChar] : Str).isPrefixOf (c :: cs) = false
  simp [List.isPrefixOf]
  intro he
  exact absurd he.symm hc

theorem findFence_none : ∀ s : Str, s.all (fun c => !(c = backtickChar)) = true →
    findFence s = none
  | [], _ => rfl
  | c :: t, h => by
    rw [List.all_cons, Bool.and_eq_true] at h
    have hc : ¬(c = backtickChar) := by
      have := h.1
      simp only [Bool.not_eq_true', decide_eq_false_iff_not] at this
      exact this
    rw [findFence, tripleBacktick_not_prefix t hc]
    simp only [Bool.false_eq_true, if_false]
    exact findFence_none t h.2

theorem all_plain_no_backtick (s : Str) (h : s.all plainChar = true) :
    s.all (fun c => !(c = backtickChar)) = true := by
  rw [List.all_eq_true] at h ⊢
  intro c hc
  have := (plainChar_spec (h c hc)).2.2
  simp [this]

/-- C6 (amended): `safe_extract_json` is total and, on the clean
serialization of any escape-free JSON value `r`, returns exactly `r`
(when `r` is a record this is the claimed record round-trip); on
non-JSON garbage containing no brace and no backtick — text from which
neither the fenced-block step nor the brace step can recover anything —
it returns the empty record. -/
theorem claim_C6 (r : Json) (g : Str) (hr : wfJson r = true)
    (hg : g.all plainChar = true) (hgl : json_loads g = none) :
    safe_extract_json (dumpsJ r) = r ∧ safe_extract_json g = Json.obj .nil := by
  constructor
  · unfold safe_extract_json
    rw [json_loads_dumps r hr]
  · unfold safe_extract_json
    rw [hgl, braceMatch_plain g hg, findFence_none g (all_plain_no_backtick g hg)]

/-- C6 witness: the flat record round-trips through its serialization and
the garbage text yields the empty record. -/
theorem claim_C6_witness :
    safe_extract_json (dumpsJ flatRecordExample) = flatRecordExample ∧
    safe_extract_json garbageText = Json.obj .nil :=
  claim_C6 flatRecordExample garbageText (by decide) (by decide) (by rfl)

/-- C6 counterexample: on the text `"[0]"` the function returns the JSON
list `[0]` unchanged — a value that is not a record — refuting "always
returns a (possibly empty) record". -/
theorem claim_C6_counterexample :
    safe_extract_json "[0]".data = Json.arr (.cons (.num 0) .nil) ∧
    Json.isRecord (Json.arr (.cons (.num 0) .nil)) = false :=
  ⟨rfl, rfl⟩

/-- C7 (amended): the brace step takes the substring from the first
opening brace to the first closing brace after it (a lazy, not a
balanced, match); when direct and fenced parsing fail and that substring
is the serialization of a brace-and-backtick-free flat record, the
record is returned. -/
theorem claim_C7 (g : Str) (r : Json) (hg : g.all plainChar = true)
    (hfr : flatRecord r = true) (hw : wfJson r = true)
    (hnone : json_loads (g ++ dumpsJ r) = none) :
    safe_extract_json (g ++ dumpsJ r) = r := by
  obtain ⟨m, rfl⟩ : ∃ m, r = Json.obj m := by
    cases r with
    | obj m => exact ⟨m, rfl⟩
    | null => exact absurd hfr (by simp [flatRecord])
    | bool b => exact absurd hfr (by simp [flatRecord])
    | num n => exact absurd hfr (by simp [flatRecord])
    | str s => exact absurd hfr (by simp [flatRecord])
    | arr l => exact absurd hfr (by simp [flatRecord])
  have hfm : flatMembers m = true := hfr
  have hwm : wfMembers m = true := hw
  obtain ⟨mid, hshape, hmid⟩ := dumps_record_shape m hfm hwm
  have hnb : (g ++ dumpsJ (Json.obj m)).all (fun c => !(c = backtickChar)) = true := by
    rw [List.all_append, hshape, Bool.and_eq_true]
    refine ⟨all_plain_no_backtick g hg, ?_⟩
    rw [List.all_cons, Bool.and_eq_true]
    refine ⟨by decide, ?_⟩
    rw [List.all_append, Bool.and_eq_true]
    exact ⟨all_plain_no_backtick mid hmid, by decide⟩
  have hbm : braceMatch (g ++ dumpsJ (Json.obj m)) = some (dumpsJ (Json.obj m)) := by
    rw [braceMatch_plain_append g _ hg, hshape, braceMatch, if_pos rfl,
      takeToRbrace_plain mid hmid]
    rfl
  unfold safe_extract_json
  rw [hnone, findFence_none _ hnb, hbm]
  dsimp only
  rw [json_loads_dumps (Json.obj m) hw, Option.getD_some]

/-- C7 witness: garbage followed by the flat record `{"a": 1}` is
recovered by the brace step. -/
theorem claim_C7_witness :
    safe_extract_json ("x ".data ++ dumpsJ flatRecordExample) = flatRecordExample :=
  claim_C7 "x ".data flatRecordExample (by decide) (by decide) (by decide) (by rfl)

/-- C7 counterexample: the text `x {"a": {"b": 1}}` has the
valid nested record as its first BALANCED brace-delimited substring, yet
the function returns the empty record — the lazy regex stops at the first
closing brace, so the claimed balanced-substring recovery fails on nested
braces. -/
theorem claim_C7_counterexample :
    safe_extract_json nestedGarbageText = Json.obj .nil ∧
    json_loads (dumpsJ nestedRecord) = some nestedRecord ∧
    ¬(Json.obj .nil = nestedRecord) :=
  ⟨rfl, rfl, by decide⟩

theorem call_web_search_all_fail (performSearch : Str → Option (List SearchResult))
    (hfail : ∀ q, performSearch q = none) (inp : SearchInput) (top_k : ℕ) :
    call_web_search performSearch inp top_k = [] := by
  have h : ∀ qs : List Str, qs.flatMap (fun q => (performSearch q).getD []) = [] := by
    intro qs
    induction qs with
    | nil => rfl
    | cons q t ih => simp [List.flatMap_cons, hfail q, ih]
  simp only [call_web_search]
  rw [h]
  simp [dedupByUrl, dedupLoop]

theorem er_step (f : InputData → Option Entity) (s : NNState) (h : s.error = none) :
    (entity_resolution_node f s).error = none := by
  unfold entity_resolution_node
  rw [h]
  cases f s.input <;> simp [h]

theorem qg_step (f : Entity → Option Queries) (s : NNState) (h : s.error = none) :
    (query_generation_node f s).error = none ∧
    (query_generation_node f s).queries.isSome = true := by
  unfold query_generation_node
  rw [h]
  cases f (qgEntityInfo s) <;> simp [h]

theorem search_step (p : Str → Option (List SearchResult)) (top_k : ℕ) (s : NNState)
    (qs : Queries) (h : s.error = none) (hq : s.queries = some qs)
    (hfail : ∀ q, p q = none) :
    (search_node p top_k s).error = none ∧
    (search_node p top_k s).search_results = some [] ∧
    (search_node p top_k s).debug.search = some Tag.success ∧
    (search_node p top_k s).output.has_negative_news = s.output.has_negative_news := by
  unfold search_node
  rw [h, hq]
  simp [h, call_web_search_all_fail p hfail]

theorem scrape_step (f : List SearchResult → Option (List Doc)) (s : NNState)
    (h : s.error = none) (hr : s.search_results = some []) :
    (scraping_node f s).error = none ∧
    (scraping_node f s).search_results = s.search_results ∧
    (scraping_node f s).scraped_content = some [] ∧
    (scraping_node f s).debug.search = s.debug.search ∧
    (scraping_node f s).output.has_negative_news = s.output.has_negative_news := by
  unfold scraping_node
  rw [h, hr]
  simp [h]

theorem chunk_step (s : NNState) (h : s.error = none) (hs : s.scraped_content = some []) :
    (chunking_node s).error = none ∧
    (chunking_node s).search_results = s.search_results ∧
    (chunking_node s).content_chunks = some [] ∧
    (chunking_node s).debug.search = s.debug.search ∧
    (chunking_node s).output.has_negative_news = s.output.has_negative_news := by
  unfold chunking_node
  rw [h, hs]
  simp [h]

theorem analysis_step (cl : Chunk → List RawFinding) (s : NNState) (h : s.error = none)
    (hc : s.content_chunks = some []) :
    (analysis_node cl s).error = none ∧
    (analysis_node cl s).search_results = s.search_results ∧
    (analysis_node cl s).debug.search = s.debug.search ∧
    (analysis_node cl s).output.has_negative_news = some false ∧
    (analysis_node cl s).analysis.isSome = true := by
  unfold analysis_node
  rw [h, hc]
  simp [h, analysisOutputs, emptyAnalysisNode]

theorem backfillRisk_hnn (o : Output) (r : Report) :
    (backfillRisk o r).has_negative_news = o.has_negative_news := by
  unfold backfillRisk
  split <;> rfl

theorem backfillSummary_hnn (o : Output) (r : Report) :
    (backfillSummary o r).has_negative_news = o.has_negative_news := by
  unfold backfillSummary
  split <;> rfl

theorem format_step (f : Analysis → Entity → Option Report) (s : NNState)
    (ha : s.analysis.isSome = true) (hn : s.output.has_negative_news = some false) :
    (formatting_node f s).report.isSome = true ∧
    (formatting_node f s).search_results = s.search_results ∧
    (formatting_node f s).debug.search = s.debug.search ∧
    (formatting_node f s).output.has_negative_news = some false := by
  obtain ⟨a, ha2⟩ := Option.isSome_iff_exists.mp ha
  unfold formatting_node
  rw [ha2]
  cases hfr : f a { full_name := stateEntityName s } <;>
    simp [hfr, backfill, backfillSummary_hnn, backfillRisk_hnn, backfillHNN, hn]

/-- C9 (amended): when the search provider errors on every query, the
pipeline still reaches the Format stage (a report is produced) with
`search_results = []` and `has_negative_news = false`, but the debug
trail marks the search stage `"success"`, not `"failed"` — the adapter
swallows the per-query errors and returns an empty list instead of
raising, so the search node's failure branch is never taken. -/
theorem claim_C9 (co : Collaborators) (top_k : ℕ) (lastInput user_input : Option UserInput)
    (hfail : ∀ q, co.performSearch q = none) :
    (run_pipeline co top_k lastInput user_input).search_results = some [] ∧
    (run_pipeline co top_k lastInput user_input).output.has_negative_news = some false ∧
    (run_pipeline co top_k lastInput user_input).report.isSome = true ∧
    (run_pipeline co top_k lastInput user_input).debug.search = some Tag.success := by
  have h1e := er_step co.resolveEntity (initialize_state lastInput user_input) rfl
  obtain ⟨h2e, h2q⟩ := qg_step co.generateQueries _ h1e
  obtain ⟨qs, hqs⟩ := Option.isSome_iff_exists.mp h2q
  obtain ⟨h3e, h3r, h3d, h3o⟩ := search_step co.performSearch top_k _ qs h2e hqs hfail
  obtain ⟨h4e, h4r, h4s, h4d, h4o⟩ := scrape_step co.scrapeContent _ h3e h3r
  obtain ⟨h5e, h5r, h5c, h5d, h5o⟩ := chunk_step _ h4e h4s
  obtain ⟨h6e, h6r, h6d, h6o, h6a⟩ := analysis_step co.classify _ h5e h5c
  obtain ⟨h7rep, h7r, h7d, h7o⟩ := format_step co.formatResults _ h6a h6o
  unfold run_pipeline
  refine ⟨?_, h7o, h7rep, ?_⟩
  · rw [h7r, h6r, h5r, h4r, h3r]
  · rw [h7d, h6d, h5d, h4d, h3d]

/-- C9 witness: a concrete run with an always-failing provider. -/
theorem claim_C9_witness :
    (run_pipeline noProviderCollaborators 10 none (some { name := "Ann".data })).search_results =
      some [] ∧
    (run_pipeline noProviderCollaborators 10 none
      (some { name := "Ann".data })).output.has_negative_news = some false ∧
    (run_pipeline noProviderCollaborators 10 none (some { name := "Ann".data })).report.isSome =
      true ∧
    (run_pipeline noProviderCollaborators 10 none (some { name := "Ann".data })).debug.search =
      some Tag.success :=
  claim_C9 noProviderCollaborators 10 none (some { name := "Ann".data }) (fun _ => rfl)

/-- C9 counterexample: in a concrete all-queries-fail run the debug trail
tags the search stage `"success"`, not the claimed `"failed"`. -/
theorem claim_C9_counterexample :
    (run_pipeline noProviderCollaborators 10 none (some { name := "Alice".data })).debug.search =
      some Tag.success ∧
    (run_pipeline noProviderCollaborators 10 none (some { name := "Alice".data })).debug.search ≠
      some Tag.failed := by
  constructor
  · rfl
  · decide

/-- C10: refuted — the initializer reads the module-global
`_last_input_data` slot (the previous invocation's raw input) whenever
the request's own input is empty, so two state initializations with the
same empty input yield different initial states after different earlier
invocations: the whole state, and already its input name, differ. -/
theorem claim_C10 :
    (initialize_state (some { name := "Alice".data }) none).input.name = "Alice".data ∧
    (initialize_state (some { name := "Bob".data }) none).input.name = "Bob".data ∧
    initialize_state (some { name := "Alice".data }) none ≠
      initialize_state (some { name := "Bob".data }) none := by
  refine ⟨rfl, rfl, ?_⟩
  decide

end NewsVerifier
